import Mathlib

/-!
# Verification of the `hawk` crate's canonicalization, codecs and validators

A shallow embedding of the core of the `rust-hawk` library
(`src/hawk/src/{mac,header,bewit,request,payload,credentials}.rs`) together
with proofs about the embedded definitions.

Modelling conventions:
* Byte strings (`Vec<u8>`, `&[u8]`) are `List Nat`, each element intended `< 256`.
* Rust `&str`/`String` are Lean `String` (both are sequences of Unicode
  scalar values); parsing code that walks a string works on `List Char`.
  Byte positions returned by Rust's `str::find` are always used to slice at
  char boundaries found by char searches, so char-indexed slicing is
  behaviourally identical.
* `time::Timespec` is a pair of unbounded integers `sec`/`nsec`; the derived
  ordering on `Timespec` in the `time` crate is lexicographic, and
  `Timespec - Timespec` produces a `Duration`, modelled as an `Int` counting
  nanoseconds.
* The HMAC provider behind `Key` is an external collaborator; a `Key` is
  modelled as an abstract signing function `String → Option (List Nat)`
  (the canonical bytes handed to openssl are exactly the UTF-8 bytes of the
  formatted `MacParams` string; `none` models a failing provider, which the
  code maps to an error).
* `openssl::memcmp::eq` asserts that both slices have the same length and
  panics otherwise; a panic is modelled as `none` (`memcmpEq`).
* Functions returning Rust `Result` are modelled with `Option` (`none` is
  the error case).
-/

/-- Model of `time::Timespec`: seconds and nanoseconds since the epoch. -/
structure Timespec where
  sec : Int
  nsec : Int
deriving Repr, DecidableEq

/-- Total nanosecond count of a `Timespec`. -/
def tsNanos (t : Timespec) : Int := t.sec * 1000000000 + t.nsec

/-- The derived (lexicographic) strict order on `time::Timespec`. -/
def tsLt (a b : Timespec) : Bool :=
  a.sec < b.sec || (a.sec = b.sec && a.nsec < b.nsec)

/-- Model of `Timespec` subtraction: yields a `Duration`, i.e. a signed nanosecond
count (`Duration::seconds(Δsec) + Duration::nanoseconds(Δnsec)`). -/
def tsSub (a b : Timespec) : Int := tsNanos a - tsNanos b

/-- Model of `Timespec + Duration` (used by `make_bewit` for `now + ttl`): add the
nanosecond count and renormalize so that `0 ≤ nsec < 10^9`. -/
def tsAdd (t : Timespec) (d : Int) : Timespec :=
  ⟨(tsNanos t + d).ediv 1000000000, (tsNanos t + d).emod 1000000000⟩

/-! ## Decimal rendering and parsing

`write!("{}", n)` for integers, and `i64::from_str`. -/

/-- The ASCII digit character for `d < 10`. -/
def digitChar (d : Nat) : Char := Char.ofNat (48 + d)

/-- Decimal digits, most significant first, by structural recursion on a
fuel bound (any `fuel > n` is enough, since `n / 10 < n` for `n ≥ 10`). -/
def natToDigitsAux : Nat → Nat → List Char
  | 0, _ => []
  | fuel + 1, n =>
    if n < 10 then [digitChar n]
    else natToDigitsAux fuel (n / 10) ++ [digitChar (n % 10)]

/-- Decimal digits of `n`, most significant first (as `{}` formatting). -/
def natToDigits (n : Nat) : List Char := natToDigitsAux (n + 1) n

/-- Decimal rendering of an integer, as Rust's `Display` for `i64`/`u16`. -/
def intToDecimalChars (v : Int) : List Char :=
  if v < 0 then '-' :: natToDigits v.natAbs else natToDigits v.natAbs

/-- Decimal rendering of an integer as a `String`. -/
def intToDecimalString (v : Int) : String := String.mk (intToDecimalChars v)

/-- Numeric value of an ASCII digit character. -/
def charToDigit (c : Char) : Nat := c.toNat - 48

/-- Value of a most-significant-first digit list. -/
def digitsToNat (ds : List Char) : Nat :=
  ds.foldl (fun acc c => 10 * acc + charToDigit c) 0

/-- Model of `i64::from_str`: an optional single leading `+`/`-` sign, then one or
more ASCII digits, rejecting values outside the `i64` range (Rust checks
overflow while accumulating; checking the final value is equivalent). -/
def i64FromStr (cs : List Char) : Option Int :=
  let neg := cs.headD ' ' = '-'
  let ds := if cs.headD ' ' = '-' || cs.headD ' ' = '+' then cs.tail else cs
  if ds ≠ [] ∧ ds.all Char.isDigit then
    let v : Int := if neg then -(digitsToNat ds : Int) else (digitsToNat ds : Int)
    if -(2 ^ 63) ≤ v ∧ v < 2 ^ 63 then some v else none
  else none

/-! ## Base64 (the `base64 0.9` crate)

`base64::encode` (standard alphabet, padded), `Base64Display::standard`,
`base64::encode_config(_, URL_SAFE_NO_PAD)` and `base64::decode`
(standard alphabet; absent padding is tolerated, as the crate's decoder
computes the tail from the input length). -/

/-- The standard base64 alphabet. -/
def b64alphChar (i : Nat) : Char :=
  if i < 26 then Char.ofNat (65 + i)
  else if i < 52 then Char.ofNat (97 + (i - 26))
  else if i < 62 then Char.ofNat (48 + (i - 52))
  else if i = 62 then '+' else '/'

/-- The URL-safe base64 alphabet (`-`/`_` for indices 62/63). -/
def b64urlAlphChar (i : Nat) : Char :=
  if i < 62 then b64alphChar i
  else if i = 62 then '-' else '_'

/-- Inverse of the standard alphabet: `none` for any other character. -/
def b64decChar (c : Char) : Option Nat :=
  if 'A' ≤ c ∧ c ≤ 'Z' then some (c.toNat - 65)
  else if 'a' ≤ c ∧ c ≤ 'z' then some (c.toNat - 97 + 26)
  else if '0' ≤ c ∧ c ≤ '9' then some (c.toNat - 48 + 52)
  else if c = '+' then some 62
  else if c = '/' then some 63
  else none

/-- Unpadded base64 body: 3 input bytes per 4 output characters, with a
2- or 3-character tail for 1 or 2 trailing bytes. -/
def b64body (alph : Nat → Char) : List Nat → List Char
  | [] => []
  | [b1] => [alph (b1 / 4), alph (b1 % 4 * 16)]
  | [b1, b2] => [alph (b1 / 4), alph (b1 % 4 * 16 + b2 / 16), alph (b2 % 16 * 4)]
  | b1 :: b2 :: b3 :: rest =>
      alph (b1 / 4) :: alph (b1 % 4 * 16 + b2 / 16) :: alph (b2 % 16 * 4 + b3 / 64) ::
        alph (b3 % 64) :: b64body alph rest

/-- Model of `'='` padding appended by the padded standard encoder. -/
def b64pad : List Nat → List Char
  | [] => []
  | [_] => ['=', '=']
  | [_, _] => ['=']
  | _ :: _ :: _ :: rest => b64pad rest

/-- Model of `base64::encode`: standard alphabet, padded. -/
def b64encodeChars (bs : List Nat) : List Char := b64body b64alphChar bs ++ b64pad bs

/-- Model of `base64::encode_config(_, URL_SAFE_NO_PAD)`. -/
def b64urlNoPadChars (bs : List Nat) : List Char := b64body b64urlAlphChar bs

/-- Decode a padding-free base64 body (standard alphabet). An input length
of 1 mod 4 is invalid. -/
def b64decodeBody : List Char → Option (List Nat)
  | [] => some []
  | [_] => none
  | [c1, c2] => do
      let s1 ← b64decChar c1
      let s2 ← b64decChar c2
      some [s1 * 4 + s2 / 16]
  | [c1, c2, c3] => do
      let s1 ← b64decChar c1
      let s2 ← b64decChar c2
      let s3 ← b64decChar c3
      some [s1 * 4 + s2 / 16, s2 % 16 * 16 + s3 / 4]
  | c1 :: c2 :: c3 :: c4 :: rest => do
      let s1 ← b64decChar c1
      let s2 ← b64decChar c2
      let s3 ← b64decChar c3
      let s4 ← b64decChar c4
      let tail ← b64decodeBody rest
      some ((s1 * 4 + s2 / 16) :: (s2 % 16 * 16 + s3 / 4) :: (s3 % 4 * 64 + s4) :: tail)

/-- Padding rule of the base64 0.9 decoder: a `'='` is accepted only in the
last two positions of a 4-character quad, and only `'='` may follow the first
`'='`; so for `bodyLen` data characters followed by `pads` trailing `'='`,
either there is no padding, or the final quad holds 2 data characters and at
most 2 pads, or 3 data characters and at most 1 pad. -/
def b64padOk (bodyLen pads : Nat) : Bool :=
  pads = 0 || (bodyLen % 4 = 2 && pads ≤ 2) || (bodyLen % 4 = 3 && pads ≤ 1)

/-- Model of `base64::decode`: standard alphabet; trailing `'='` padding is
accepted only where it completes the final 4-character quad (absent padding
is tolerated), and `'='` anywhere else is rejected, in the body via
`b64decChar '=' = none`. -/
def b64decodeChars (cs : List Char) : Option (List Nat) :=
  if b64padOk ((cs.reverse.dropWhile (· = '=')).reverse).length
      (cs.length - ((cs.reverse.dropWhile (· = '=')).reverse).length) then
    b64decodeBody ((cs.reverse.dropWhile (· = '=')).reverse)
  else none

/-- Model of `base64::decode` on a `String`. -/
def b64decode (s : String) : Option (List Nat) := b64decodeChars s.data

/-! ## UTF-8 -/

/-- UTF-8 encoding of one Unicode scalar value. -/
def utf8EncodeChar (c : Char) : List Nat :=
  let n := c.toNat
  if n < 128 then [n]
  else if n < 2048 then [192 + n / 64, 128 + n % 64]
  else if n < 65536 then [224 + n / 4096, 128 + n / 64 % 64, 128 + n % 64]
  else [240 + n / 262144, 128 + n / 4096 % 64, 128 + n / 64 % 64, 128 + n % 64]

/-- UTF-8 bytes of a string (`str::as_bytes`). -/
def utf8Encode (s : String) : List Nat :=
  s.data.foldr (fun c acc => utf8EncodeChar c ++ acc) []

/-- Whether a byte is a UTF-8 continuation byte `10xxxxxx`. -/
def isCont (b : Nat) : Bool := 128 ≤ b && b < 192

/-- Strict UTF-8 decoding (`String::from_utf8` / `str::from_utf8`):
rejects overlong forms, surrogates and out-of-range scalars. -/
def utf8DecodeAux : List Nat → Option (List Char)
  | [] => some []
  | b :: rest =>
    if b < 128 then (utf8DecodeAux rest).map (Char.ofNat b :: ·)
    else if b < 194 then none
    else if b < 224 then
      match rest with
      | b2 :: rest2 =>
        if isCont b2 then
          (utf8DecodeAux rest2).map (Char.ofNat ((b - 192) * 64 + (b2 - 128)) :: ·)
        else none
      | _ => none
    else if b < 240 then
      match rest with
      | b2 :: b3 :: rest3 =>
        if isCont b2 && isCont b3 && (b ≠ 224 || 160 ≤ b2) && (b ≠ 237 || b2 < 160) then
          (utf8DecodeAux rest3).map
            (Char.ofNat ((b - 224) * 4096 + (b2 - 128) * 64 + (b3 - 128)) :: ·)
        else none
      | _ => none
    else if b < 245 then
      match rest with
      | b2 :: b3 :: b4 :: rest4 =>
        if isCont b2 && isCont b3 && isCont b4 && (b ≠ 240 || 144 ≤ b2) &&
            (b ≠ 244 || b2 < 144) then
          (utf8DecodeAux rest4).map
            (Char.ofNat ((b - 240) * 262144 + (b2 - 128) * 4096 + (b3 - 128) * 64 + (b4 - 128)) :: ·)
        else none
      | _ => none
    else none

/-- Model of `String::from_utf8`. -/
def utf8Decode (bs : List Nat) : Option String := (utf8DecodeAux bs).map String.mk

/-- Model of `slice::split` on a single separator byte: `n` separators yield `n + 1`
parts (the empty slice yields one empty part). -/
def splitOnByte (sep : Nat) : List Nat → List (List Nat)
  | [] => [[]]
  | b :: rest =>
    match splitOnByte sep rest with
    | [] => [[]]
    | part :: parts => if b = sep then [] :: part :: parts else (b :: part) :: parts

/-! ## Credentials & Key (`credentials.rs`)

The HMAC/digest provider is an external collaborator: a `Key` carries an
abstract signing function from the canonical string (whose UTF-8 bytes are
what `SignedWriter` feeds to openssl) to the MAC bytes; `none` models a
provider failure (`Result::Err`). -/

structure Key where
  sign : String → Option (List Nat)

/-- Model of `Credentials`: an id and the key associated with it. -/
structure Credentials where
  id : String
  key : Key

/-! ## MAC canonicalizer and signer (`mac.rs`) -/

/-- The kind of MAC calculation (the first line of the message). -/
inductive MacType where
  | header
  | response
  | bewit
deriving Repr, DecidableEq

/-- The type tag written as the first canonical line. -/
def MacType.tag : MacType → String
  | .header => "hawk.1.header"
  | .response => "hawk.1.response"
  | .bewit => "hawk.1.bewit"

/-- Model of `MacParams`: the transient input record fully determining the canonical
bytes. -/
structure MacParams where
  macType : MacType
  ts : Timespec
  nonce : String
  method : String
  host : String
  port : Nat
  path : String
  hash : Option (List Nat)
  ext : Option String

/-- Model of `impl Display for MacParams`: one newline-terminated line per field in
fixed order (type tag, `ts.sec`, nonce, method, path, host, port, the
standard base64 of `hash` or an empty line, `ext` or an empty line). -/
def macParamsString (p : MacParams) : String :=
  p.macType.tag ++ "\n" ++
  intToDecimalString p.ts.sec ++ "\n" ++
  p.nonce ++ "\n" ++
  p.method ++ "\n" ++
  p.path ++ "\n" ++
  p.host ++ "\n" ++
  intToDecimalString (p.port : Int) ++ "\n" ++
  (match p.hash with
   | some h => String.mk (b64encodeChars h)
   | none => "") ++ "\n" ++
  (match p.ext with
   | some e => e
   | none => "") ++ "\n"

/-- Model of `Mac::new_signed` (and the deprecated `Mac::new` wrapping it): sign the
formatted canonical string with the key. -/
def macNewSigned (key : Key) (p : MacParams) : Option (List Nat) :=
  key.sign (macParamsString p)

/-- Model of `impl PartialEq for Mac`, which calls `openssl::memcmp::eq`. That
function asserts both slices have the same length and panics otherwise
(`none`); otherwise it is a constant-time comparison, extensionally plain
equality (`some`). -/
def memcmpEq (a b : List Nat) : Option Bool :=
  if a.length = b.length then some (decide (a = b)) else none

/-! ## Header codec (`header.rs`) -/

/-- The double-quote character. -/
def dq : Char := Char.ofNat 34

/-- Model of `Header`: all eight fields independently optional. A `Mac` is its byte
vector. -/
structure Header where
  id : Option String
  ts : Option Timespec
  nonce : Option String
  mac : Option (List Nat)
  ext : Option String
  hash : Option (List Nat)
  app : Option String
  dlg : Option String
deriving Repr, DecidableEq

/-- The all-absent header. -/
def Header.empty : Header := ⟨none, none, none, none, none, none, none, none⟩

/-- Model of `Header::check_component`: a string component may not contain a literal
double-quote. -/
def checkComponent (v : Option String) : Option (Option String) :=
  match v with
  | some s => if s.data.any (fun c => c = dq) then none else some (some s)
  | none => some none

/-- Model of `Header::new`: construct a header, validating every string component. -/
def Header.new (id : Option String) (ts : Option Timespec) (nonce : Option String)
    (mac : Option (List Nat)) (ext : Option String) (hash : Option (List Nat))
    (app : Option String) (dlg : Option String) : Option Header := do
  let id ← checkComponent id
  let nonce ← checkComponent nonce
  let ext ← checkComponent ext
  let app ← checkComponent app
  let dlg ← checkComponent dlg
  some ⟨id, ts, nonce, mac, ext, hash, app, dlg⟩

/-- One optional field: a present field renders as a single (name, value)
pair, an absent field renders as nothing. -/
def optField (name : List Char) (o : Option (List Char)) : List (List Char × List Char) :=
  match o with
  | some v => [(name, v)]
  | none => []

/-- The present fields of a header in serialization order
`id, ts, nonce, mac, ext, hash, app, dlg`, as (name, rendered value)
pairs; `ts` renders as decimal seconds, `mac`/`hash` as padded standard
base64. -/
def headerFieldList (h : Header) : List (List Char × List Char) :=
  optField "id".data (h.id.map String.data) ++
  optField "ts".data (h.ts.map (fun t => intToDecimalChars t.sec)) ++
  optField "nonce".data (h.nonce.map String.data) ++
  optField "mac".data (h.mac.map b64encodeChars) ++
  optField "ext".data (h.ext.map String.data) ++
  optField "hash".data (h.hash.map b64encodeChars) ++
  optField "app".data (h.app.map String.data) ++
  optField "dlg".data (h.dlg.map String.data)

/-- One serialized field: `name="value"`. -/
def fieldChars (f : List Char × List Char) : List Char :=
  f.1 ++ '=' :: dq :: f.2 ++ [dq]

/-- Render a field list joined by `", "` (the `sep` accumulator in
`fmt_header` emits nothing before the first present field and `", "`
before each later one). -/
def renderFields : List (List Char × List Char) → List Char
  | [] => []
  | f :: fs => fieldChars f ++ (fs.map (fun g => ',' :: ' ' :: fieldChars g)).flatten

/-- Model of `Header::fmt_header` (= `Display`): the serialized header value. -/
def Header.fmtHeader (h : Header) : String := String.mk (renderFields (headerFieldList h))

/-- Separator characters skipped between fields: commas and whitespace.
(Rust uses `char::is_whitespace`, full Unicode white space; `Char.isWhitespace`
covers the ASCII subset, which is all the serializer ever emits.) -/
def isSep (c : Char) : Bool := c = ',' || c.isWhitespace

/-- Trim whitespace from both ends (`str::trim`). -/
def trimWs (cs : List Char) : List Char :=
  ((cs.dropWhile Char.isWhitespace).reverse.dropWhile Char.isWhitespace).reverse

/-- Trim leading whitespace (`str::trim_left`). -/
def trimLeftWs (cs : List Char) : List Char := cs.dropWhile Char.isWhitespace

/-- One attribute assignment in `Header::from_str`'s match: recognized
names update the corresponding field (later occurrences overwrite earlier
ones), `ts` parses as `i64` seconds, `mac`/`hash` base64-decode, and an
unrecognized name is an error. -/
def applyAttr (attr : List Char) (val : List Char) (h : Header) : Option Header :=
  if attr = "id".data then some { h with id := some (String.mk val) }
  else if attr = "ts".data then
    match i64FromStr val with
    | some epoch => some { h with ts := some ⟨epoch, 0⟩ }
    | none => none
  else if attr = "mac".data then
    match b64decodeChars val with
    | some m => some { h with mac := some m }
    | none => none
  else if attr = "nonce".data then some { h with nonce := some (String.mk val) }
  else if attr = "ext".data then some { h with ext := some (String.mk val) }
  else if attr = "hash".data then
    match b64decodeChars val with
    | some m => some { h with hash := some m }
    | none => none
  else if attr = "app".data then some { h with app := some (String.mk val) }
  else if attr = "dlg".data then some { h with dlg := some (String.mk val) }
  else none

/-- The parsing loop of `Header::from_str`: while input remains, skip
separator commas/whitespace, read `name` up to `=` (trimming surrounding
whitespace), require a `"`-delimited value with no escape support, apply
the attribute, and continue after the closing quote. Structural recursion
on a fuel bound; every iteration consumes at least the `=` and both quote
characters, so any `fuel > p.length` is enough. -/
def parseHeaderLoop : Nat → List Char → Header → Option Header
  | 0, _, _ => none
  | fuel + 1, p, h =>
    if p = [] then some h
    else
      let p1 := p.dropWhile isSep
      let name := p1.takeWhile (fun c => c ≠ '=')
      match p1.dropWhile (fun c => c ≠ '=') with
      | [] => none
      | _ :: rest1 =>
        let attr := trimWs name
        match trimLeftWs rest1 with
        | [] => none
        | c :: p3 =>
          if c = dq then
            let val := p3.takeWhile (fun c => c ≠ dq)
            match p3.dropWhile (fun c => c ≠ dq) with
            | [] => none
            | _ :: rest3 =>
              match applyAttr attr val h with
              | some h' => parseHeaderLoop fuel (trimLeftWs rest3) h'
              | none => none
          else none

/-- Model of `Header::from_str`. -/
def Header.fromStr (s : String) : Option Header :=
  parseHeaderLoop (s.data.length + 1) s.data Header.empty

/-! ## Bewit codec (`bewit.rs`) -/

/-- Model of `Bewit`: id, expiry, MAC, optional ext. -/
structure Bewit where
  id : String
  exp : Timespec
  mac : List Nat
  ext : Option String
deriving Repr, DecidableEq

/-- Model of `Bewit::to_str`: format `id \ exp.sec \ base64(mac) \ (ext or "")` and
base64url-encode the UTF-8 bytes of that string without padding. -/
def Bewit.toStr (b : Bewit) : String :=
  let raw : String :=
    b.id ++ "\\" ++ intToDecimalString b.exp.sec ++ "\\" ++
    String.mk (b64encodeChars b.mac) ++ "\\" ++
    (match b.ext with
     | some e => e
     | none => "")
  String.mk (b64urlNoPadChars (utf8Encode raw))

/-- Model of `impl FromStr for Bewit`: `base64::decode` (standard alphabet — not the
URL-safe alphabet used by `to_str`), split on the raw backslash byte into
exactly 4 parts, decode id (UTF-8), exp (UTF-8 then `i64`), mac (UTF-8 then
standard base64); an empty part 3 leaves `ext` absent, a non-empty one
decodes as UTF-8. -/
def Bewit.fromStr (s : String) : Option Bewit :=
  match b64decode s with
  | none => none
  | some bytes =>
    match splitOnByte 92 bytes with
    | [p0, p1, p2, p3] =>
      match utf8Decode p0 with
      | none => none
      | some id =>
        match utf8Decode p1 with
        | none => none
        | some expStr =>
          match i64FromStr expStr.data with
          | none => none
          | some exp =>
            match utf8Decode p2 with
            | none => none
            | some macStr =>
              match b64decode macStr with
              | none => none
              | some mac =>
                match p3 with
                | [] => some ⟨id, ⟨exp, 0⟩, mac, none⟩
                | _ =>
                  match utf8Decode p3 with
                  | none => none
                  | some e => some ⟨id, ⟨exp, 0⟩, mac, some e⟩
    | _ => none

/-! ## Request (`request.rs`) -/

/-- The immutable request description built by `RequestBuilder`. -/
structure Request where
  method : String
  host : String
  port : Nat
  path : String
  hash : Option (List Nat)
  ext : Option String
  app : Option String
  dlg : Option String

/-- The `MacParams` used for a header MAC: the request's
method/host/port/path with a given ts, nonce, hash and ext. -/
def headerMacParams (r : Request) (ts : Timespec) (nonce : String)
    (hash : Option (List Nat)) (ext : Option String) : MacParams :=
  ⟨.header, ts, nonce, r.method, r.host, r.port, r.path, hash, ext⟩

/-- The `MacParams` used for a bewit MAC: type `Bewit`, empty nonce, the
request's method/host/port/path and hash, a given ts and ext. -/
def bewitMacParams (r : Request) (ts : Timespec) (ext : Option String) : MacParams :=
  ⟨.bewit, ts, "", r.method, r.host, r.port, r.path, r.hash, ext⟩

/-- Model of `Request::make_header_full`: sign with the header parameters and build
a fully populated header. -/
def Request.makeHeaderFull (r : Request) (credentials : Credentials) (ts : Timespec)
    (nonce : String) : Option Header :=
  match macNewSigned credentials.key (headerMacParams r ts nonce r.hash r.ext) with
  | none => none
  | some mac =>
    Header.new (some credentials.id) (some ts) (some nonce) (some mac) r.ext r.hash r.app r.dlg

/-- Model of `Request::make_bewit`: `exp = now + ttl`, sign with the bewit
parameters (the request's method and hash are included even though bewits
require GET and no hash), and build the bewit from the credential id. -/
def Request.makeBewit (r : Request) (credentials : Credentials) (ttl : Int)
    (now : Timespec) : Option Bewit :=
  let exp := tsAdd now ttl
  match macNewSigned credentials.key (bewitMacParams r exp r.ext) with
  | none => none
  | some mac => some ⟨credentials.id, exp, mac, r.ext⟩

/-- Model of `Request::validate_header`. Returns `some false` on a validation
failure; `none` models the panic inside `openssl::memcmp::eq` when the MAC
byte lengths differ. -/
def Request.validateHeader (r : Request) (h : Header) (key : Key) (tsSkew : Int)
    (now : Timespec) : Option Bool :=
  match h.ts with
  | none => some false
  | some ts =>
  match h.nonce with
  | none => some false
  | some nonce =>
  match h.mac with
  | none => some false
  | some headerMac =>
  match macNewSigned key (headerMacParams r ts nonce h.hash h.ext) with
  | none => some false
  | some calculatedMac =>
  match memcmpEq calculatedMac headerMac with
  | none => none
  | some macsEqual =>
  if !macsEqual then some false
  else
    let tsCheck : Option Bool :=
      let skew : Int := if tsLt ts now then tsSub now ts else tsSub ts now
      if skew > tsSkew then some false else some true
    match r.hash with
    | some localHash =>
      match h.hash with
      | some serverHash => if localHash ≠ serverHash then some false else tsCheck
      | none => some false
    | none => tsCheck

/-- Model of `Request::validate_bewit`. Returns `some false` on a validation
failure; `none` models the panic inside `openssl::memcmp::eq` when the MAC
byte lengths differ. -/
def Request.validateBewit (r : Request) (b : Bewit) (key : Key) (now : Timespec) :
    Option Bool :=
  match macNewSigned key (bewitMacParams r b.exp b.ext) with
  | none => some false
  | some calculatedMac =>
  match memcmpEq b.mac calculatedMac with
  | none => none
  | some macsEqual =>
  if !macsEqual then some false
  else if tsLt b.exp now then some false
  else some true

/-! ## Payload hasher (`payload.rs`)

The openssl streaming `Hasher` is an external collaborator: it is modelled
as the accumulated byte stream plus an abstract digest function applied on
`finish`. `finish` consumes the hasher by ownership transfer, making
updates after finishing unrepresentable. -/

/-- An external digest algorithm: its output size and its (abstract)
function from a complete byte stream to the digest bytes. -/
structure Digest where
  size : Nat
  run : List Nat → List Nat

/-- Model of `PayloadHasher`: streaming state. -/
structure PayloadHasher where
  digest : Digest
  acc : List Nat

/-- Model of `PayloadHasher::update`: feed more bytes. -/
def PayloadHasher.update (h : PayloadHasher) (data : List Nat) : PayloadHasher :=
  { h with acc := h.acc ++ data }

/-- Model of `PayloadHasher::new`: start a hasher and feed the preamble
`"hawk.1.payload\n"`, the content type, and `"\n"`. -/
def PayloadHasher.new (contentType : List Nat) (digest : Digest) : PayloadHasher :=
  ((PayloadHasher.update ⟨digest, []⟩ (utf8Encode "hawk.1.payload\n")).update
    contentType).update (utf8Encode "\n")

/-- Model of `PayloadHasher::finish`: append a trailing newline and extract the
digest. -/
def PayloadHasher.finish (h : PayloadHasher) : List Nat :=
  (h.update (utf8Encode "\n")).digest.run (h.update (utf8Encode "\n")).acc

/-- Model of `PayloadHasher::hash`: the one-shot convenience form. -/
def PayloadHasher.hash (contentType : List Nat) (digest : Digest) (payload : List Nat) :
    List Nat :=
  ((PayloadHasher.new contentType digest).update payload).finish

/-! ## Concrete instances used for witnesses and counterexamples -/

/-- A concrete key whose (abstract) HMAC provider returns a fixed 2-byte
digest. -/
def keyT : Key := ⟨fun _ => some [9, 42]⟩

/-- A concrete request description. -/
def reqT : Request := ⟨"GET", "example.com", 443, "/foo", none, none, none, none⟩

/-- Concrete credentials. -/
def credT : Credentials := ⟨"me", keyT⟩

/-- A header carrying a 3-byte wire MAC while the key digests to 2 bytes. -/
def hdrPanic : Header :=
  ⟨some "me", some ⟨1000, 0⟩, some "n", some [1, 2, 3], none, none, none, none⟩

/-- A bewit carrying a 3-byte wire MAC while the key digests to 2 bytes. -/
def bwPanic : Bewit := ⟨"me", ⟨2000, 0⟩, [1, 2, 3], none⟩

/-- A bewit whose id makes the URL-safe encoding of `to_str` contain `-`. -/
def bwTilde : Bewit := ⟨"~~~", ⟨0, 0⟩, [], none⟩

/-- A header whose timestamp has a non-zero sub-second part. -/
def hdrSubSec : Header := ⟨none, some ⟨0, 1⟩, none, none, none, none, none, none⟩

/-- A header agreeing with `keyT`'s digest, used to exercise successful
validation. -/
def hdrOk : Header :=
  ⟨some "me", some ⟨1000, 0⟩, some "n", some [9, 42], none, none, none, none⟩

/-- Model of `hdrOk` with different `id`, `app` and `dlg`. -/
def hdrOk2 : Header :=
  ⟨some "you", some ⟨1000, 0⟩, some "n", some [9, 42], none, none, some "a", some "d"⟩

/-- A bewit matching `keyT`'s digest on `reqT`. -/
def bwOk : Bewit := ⟨"me", ⟨2000, 0⟩, [9, 42], none⟩

/-- A header with every field present, used for the round-trip witness. -/
def hdrFull : Header :=
  ⟨some "dh37fgj492je", some ⟨1353832234, 0⟩, some "j4h3g2", some [8, 35, 182],
   some "my-ext", some [1, 2, 3, 4], some "my-app", some "my-dlg"⟩

/-- A concrete digest function for the payload-hasher witness. -/
def digestT : Digest := ⟨2, fun bs => [bs.length % 256, 7]⟩

/-- A well-formed bewit token: the standard base64 of the bytes of
`"a\\1\\\\"` (id `"a"`, exp `1`, empty mac, absent ext). -/
def bewitTokenW : String := String.mk (b64encodeChars [97, 92, 49, 92, 92])

/-- The bewit `make_bewit` produces from `reqT`/`credT` at time 1000 s
with a 60-second ttl. -/
def bwMade : Bewit := ⟨"me", tsAdd ⟨1000, 0⟩ 60000000000, [9, 42], none⟩

/-- On success, `applyAttr` only ever turns `acc` into an updated record;
`goodField` bundles what the round-trip proof needs of one rendered field:
a non-empty name free of separators and `=`, a value free of `"`, and an
attribute application that succeeds on every accumulator. -/
def goodField (f : List Char × List Char) : Prop :=
  f.1 ≠ [] ∧ (∀ c ∈ f.1, isSep c = false ∧ c ≠ '=') ∧ (∀ c ∈ f.2, c ≠ dq) ∧
  ∀ acc : Header, ∃ acc', applyAttr f.1 f.2 acc = some acc'

/-- Sequential application of parsed fields, as the parse loop does. -/
def applyAllOpt : List (List Char × List Char) → Header → Option Header
  | [], h => some h
  | f :: fs, h =>
    match applyAttr f.1 f.2 h with
    | some h' => applyAllOpt fs h'
    | none => none

/-- The hash comparison performed by `validate_header` after the MAC
check: a locally-required hash must be matched exactly by the header. -/
def hashCheckOk (localHash serverHash : Option (List Nat)) : Bool :=
  match localHash with
  | some lh =>
    match serverHash with
    | some sh => decide (lh = sh)
    | none => false
  | none => true

/-! ## Helper lemmas: decimal rendering and parsing -/

theorem digitsToNat_append (ds : List Char) (c : Char) :
    digitsToNat (ds ++ [c]) = 10 * digitsToNat ds + charToDigit c := by
  simp [digitsToNat, List.foldl_append]

theorem charToDigit_digitChar : ∀ d, d < 10 → charToDigit (digitChar d) = d := by decide

theorem isDigit_digitChar : ∀ d, d < 10 → (digitChar d).isDigit = true := by decide

theorem natToDigitsAux_val : ∀ fuel n, n < fuel →
    digitsToNat (natToDigitsAux fuel n) = n := by
  intro fuel
  induction fuel with
  | zero => omega
  | succ f ih =>
    intro n hn
    by_cases h10 : n < 10
    · simp [natToDigitsAux, h10, digitsToNat, charToDigit_digitChar n h10]
    · have hrec : n / 10 < f := by omega
      simp [natToDigitsAux, h10, digitsToNat_append, ih (n / 10) hrec,
        charToDigit_digitChar (n % 10) (by omega)]
      omega

theorem natToDigitsAux_digits : ∀ fuel n, ∀ c ∈ natToDigitsAux fuel n, c.isDigit = true := by
  intro fuel
  induction fuel with
  | zero => simp [natToDigitsAux]
  | succ f ih =>
    intro n c hc
    by_cases h10 : n < 10
    · simp [natToDigitsAux, h10] at hc
      subst hc
      exact isDigit_digitChar n h10
    · simp [natToDigitsAux, h10] at hc
      rcases hc with hc | hc
      · exact ih _ c hc
      · subst hc
        exact isDigit_digitChar (n % 10) (by omega)

theorem natToDigitsAux_ne_nil : ∀ fuel n, 0 < fuel → natToDigitsAux fuel n ≠ [] := by
  intro fuel n hf
  match fuel, hf with
  | f + 1, _ =>
    by_cases h10 : n < 10 <;> simp [natToDigitsAux, h10]

theorem natToDigits_val (n : Nat) : digitsToNat (natToDigits n) = n :=
  natToDigitsAux_val (n + 1) n (by omega)

theorem natToDigits_digits (n : Nat) : ∀ c ∈ natToDigits n, c.isDigit = true :=
  natToDigitsAux_digits (n + 1) n

theorem natToDigits_ne_nil (n : Nat) : natToDigits n ≠ [] :=
  natToDigitsAux_ne_nil (n + 1) n (by omega)

theorem isDigit_ne_minus {c : Char} (hc : c.isDigit = true) : (c = '-') = False := by
  simp only [eq_iff_iff, iff_false]
  intro h
  subst h
  simp [Char.isDigit] at hc

theorem isDigit_ne_plus {c : Char} (hc : c.isDigit = true) : (c = '+') = False := by
  simp only [eq_iff_iff, iff_false]
  intro h
  subst h
  simp [Char.isDigit] at hc

/-- Model of `i64::from_str` parses back what `{}` formatting produced, for any
value in the `i64` range. -/
theorem i64FromStr_roundtrip (v : Int) (hlo : -(2 ^ 63) ≤ v) (hhi : v < 2 ^ 63) :
    i64FromStr (intToDecimalChars v) = some v := by
  obtain ⟨c, cs, hcs⟩ : ∃ c cs, natToDigits v.natAbs = c :: cs := by
    cases h : natToDigits v.natAbs with
    | nil => exact absurd h (natToDigits_ne_nil _)
    | cons c cs => exact ⟨c, cs, rfl⟩
  have hcdig : c.isDigit = true := by
    have hd := natToDigits_digits v.natAbs
    rw [hcs] at hd
    exact hd c (by simp)
  have hall : (c :: cs).all Char.isDigit = true := by
    rw [← hcs]
    simp only [List.all_eq_true]
    exact natToDigits_digits _
  have hval : digitsToNat (c :: cs) = v.natAbs := by
    rw [← hcs]
    exact natToDigits_val _
  by_cases hneg : v < 0
  · simp only [intToDecimalChars, if_pos hneg, hcs, i64FromStr, List.headD, List.tail]
    simp only [decide_True, Bool.true_or, if_true, ne_eq, reduceCtorEq, not_false_eq_true,
      hall, and_self, if_true, hval]
    rw [if_pos (by omega)]
    congr 1
    omega
  · simp only [intToDecimalChars, if_neg hneg, hcs, i64FromStr, List.headD, List.tail]
    simp only [isDigit_ne_minus hcdig, isDigit_ne_plus hcdig, decide_False, Bool.or_self,
      if_false, ne_eq, reduceCtorEq, not_false_eq_true, hall, and_self, if_true, hval]
    rw [if_pos (by omega)]
    congr 1
    omega

/-! ## Helper lemmas: base64 -/

theorem b64decChar_alph : ∀ i, i < 64 → b64decChar (b64alphChar i) = some i := by decide

theorem b64alph_ne_pad : ∀ i, i < 64 → b64alphChar i ≠ '=' := by decide

theorem b64alph_ne_dq : ∀ i, i < 64 → b64alphChar i ≠ dq := by decide

theorem dropWhile_append_of_all {p : Char → Bool} {a b : List Char}
    (h : ∀ c ∈ a, p c = true) : (a ++ b).dropWhile p = b.dropWhile p := by
  induction a with
  | nil => simp
  | cons x xs ih =>
    simp only [List.cons_append, List.dropWhile_cons, h x (by simp), if_true]
    exact ih (fun c hc => h c (by simp [hc]))

theorem dropWhile_of_all_false {p : Char → Bool} {a : List Char}
    (h : ∀ c ∈ a, p c = false) : a.dropWhile p = a := by
  cases a with
  | nil => rfl
  | cons x xs => simp [List.dropWhile_cons, h x (by simp)]

theorem dropWhile_ne_nil_append {p : Char → Bool} {a b : List Char}
    (h : a.dropWhile p ≠ []) : (a ++ b).dropWhile p = a.dropWhile p ++ b := by
  induction a with
  | nil => simp at h
  | cons x xs ih =>
    by_cases hx : p x
    · have h' : xs.dropWhile p ≠ [] := by
        simpa [List.dropWhile_cons, hx] using h
      simp [List.cons_append, List.dropWhile_cons, hx, ih h']
    · simp [List.cons_append, List.dropWhile_cons, hx]

theorem b64body_mem {alph : Nat → Char} :
    ∀ bs : List Nat, (∀ b ∈ bs, b < 256) →
      ∀ c ∈ b64body alph bs, ∃ i, i < 64 ∧ c = alph i := by
  intro bs
  induction bs using b64body.induct alph with
  | case1 => simp [b64body]
  | case2 b1 =>
    intro hb c hc
    simp only [b64body, List.mem_cons, List.mem_singleton, List.not_mem_nil, or_false] at hc
    have h1 : b1 < 256 := hb b1 (by simp)
    rcases hc with hc | hc <;> exact ⟨_, by omega, hc⟩
  | case3 b1 b2 =>
    intro hb c hc
    simp only [b64body, List.mem_cons, List.mem_singleton, List.not_mem_nil, or_false] at hc
    have h1 : b1 < 256 := hb b1 (by simp)
    have h2 : b2 < 256 := hb b2 (by simp)
    rcases hc with hc | hc | hc <;> exact ⟨_, by omega, hc⟩
  | case4 b1 b2 b3 rest ih =>
    intro hb c hc
    simp only [b64body, List.mem_cons] at hc
    have h1 : b1 < 256 := hb b1 (by simp)
    have h2 : b2 < 256 := hb b2 (by simp)
    have h3 : b3 < 256 := hb b3 (by simp)
    rcases hc with hc | hc | hc | hc | hc
    · exact ⟨_, by omega, hc⟩
    · exact ⟨_, by omega, hc⟩
    · exact ⟨_, by omega, hc⟩
    · exact ⟨_, by omega, hc⟩
    · exact ih (fun b hbm => hb b (by simp [hbm])) c hc

theorem b64body_ne_nil {alph : Nat → Char} {bs : List Nat} (h : bs ≠ []) :
    b64body alph bs ≠ [] := by
  match bs, h with
  | [b1], _ => simp [b64body]
  | [b1, b2], _ => simp [b64body]
  | b1 :: b2 :: b3 :: rest, _ => simp [b64body]

theorem b64encodeChars_cons3 (b1 b2 b3 : Nat) (rest : List Nat) :
    b64encodeChars (b1 :: b2 :: b3 :: rest) =
      b64alphChar (b1 / 4) :: b64alphChar (b1 % 4 * 16 + b2 / 16) ::
      b64alphChar (b2 % 16 * 4 + b3 / 64) :: b64alphChar (b3 % 64) ::
      b64encodeChars rest := by
  simp [b64encodeChars, b64body, b64pad]

/-- Stripping the trailing padding of a standard encoding recovers the
unpadded body. -/
theorem b64strip_encode : ∀ bs : List Nat, (∀ b ∈ bs, b < 256) →
    ((b64encodeChars bs).reverse.dropWhile (· = '=')).reverse = b64body b64alphChar bs := by
  intro bs
  induction bs using b64body.induct b64alphChar with
  | case1 => intro _; rfl
  | case2 b1 =>
    intro hb
    have h2 : b64alphChar (b1 % 4 * 16) ≠ '=' := b64alph_ne_pad _ (by omega)
    simp [b64encodeChars, b64body, b64pad, List.dropWhile, h2]
  | case3 b1 b2 =>
    intro hb
    have h3 : b64alphChar (b2 % 16 * 4) ≠ '=' := b64alph_ne_pad _ (by omega)
    simp [b64encodeChars, b64body, b64pad, List.dropWhile, h3]
  | case4 b1 b2 b3 rest ih =>
    intro hb
    have hb3 : b3 < 256 := hb b3 (by simp)
    have h4 : b64alphChar (b3 % 64) ≠ '=' := b64alph_ne_pad _ (by omega)
    rw [b64encodeChars_cons3]
    by_cases hrest : rest = []
    · subst hrest
      simp [b64encodeChars, b64body, b64pad, List.dropWhile, h4]
    · have ihr := ih (fun b hbm => hb b (by simp [hbm]))
      have hbody : (b64encodeChars rest).reverse.dropWhile (· = '=') =
          (b64body b64alphChar rest).reverse := by
        have := congrArg List.reverse ihr
        simpa using this
      have hne : (b64encodeChars rest).reverse.dropWhile (· = '=') ≠ [] := by
        rw [hbody]
        simpa using (b64body_ne_nil hrest : b64body b64alphChar rest ≠ [])
      calc ((b64alphChar (b1 / 4) :: b64alphChar (b1 % 4 * 16 + b2 / 16) ::
              b64alphChar (b2 % 16 * 4 + b3 / 64) :: b64alphChar (b3 % 64) ::
              b64encodeChars rest).reverse.dropWhile (· = '=')).reverse
          = (((b64encodeChars rest).reverse ++
              [b64alphChar (b3 % 64), b64alphChar (b2 % 16 * 4 + b3 / 64),
               b64alphChar (b1 % 4 * 16 + b2 / 16), b64alphChar (b1 / 4)]).dropWhile
                (· = '=')).reverse := by
            simp
        _ = ((b64encodeChars rest).reverse.dropWhile (· = '=') ++
              [b64alphChar (b3 % 64), b64alphChar (b2 % 16 * 4 + b3 / 64),
               b64alphChar (b1 % 4 * 16 + b2 / 16), b64alphChar (b1 / 4)]).reverse := by
            rw [dropWhile_ne_nil_append hne]
        _ = b64alphChar (b1 / 4) :: b64alphChar (b1 % 4 * 16 + b2 / 16) ::
              b64alphChar (b2 % 16 * 4 + b3 / 64) :: b64alphChar (b3 % 64) ::
              b64body b64alphChar rest := by
            rw [hbody]
            simp
        _ = b64body b64alphChar (b1 :: b2 :: b3 :: rest) := by
            simp [b64body]

/-- Decoding the unpadded body recovers the bytes. -/
theorem b64decodeBody_body : ∀ bs : List Nat, (∀ b ∈ bs, b < 256) →
    b64decodeBody (b64body b64alphChar bs) = some bs := by
  intro bs
  induction bs using b64body.induct b64alphChar with
  | case1 => intro _; rfl
  | case2 b1 =>
    intro hb
    have h1 : b1 < 256 := hb b1 (by simp)
    rw [show b64body b64alphChar [b1] = [b64alphChar (b1 / 4), b64alphChar (b1 % 4 * 16)]
        from rfl]
    rw [show b64decodeBody [b64alphChar (b1 / 4), b64alphChar (b1 % 4 * 16)] =
        (do
          let s1 ← b64decChar (b64alphChar (b1 / 4))
          let s2 ← b64decChar (b64alphChar (b1 % 4 * 16))
          some [s1 * 4 + s2 / 16]) from rfl]
    rw [b64decChar_alph _ (by omega), b64decChar_alph _ (by omega)]
    show some [b1 / 4 * 4 + b1 % 4 * 16 / 16] = some [b1]
    congr 2
    omega
  | case3 b1 b2 =>
    intro hb
    have h1 : b1 < 256 := hb b1 (by simp)
    have h2 : b2 < 256 := hb b2 (by simp)
    rw [show b64body b64alphChar [b1, b2] =
        [b64alphChar (b1 / 4), b64alphChar (b1 % 4 * 16 + b2 / 16),
         b64alphChar (b2 % 16 * 4)] from rfl]
    rw [show b64decodeBody
        [b64alphChar (b1 / 4), b64alphChar (b1 % 4 * 16 + b2 / 16),
         b64alphChar (b2 % 16 * 4)] =
        (do
          let s1 ← b64decChar (b64alphChar (b1 / 4))
          let s2 ← b64decChar (b64alphChar (b1 % 4 * 16 + b2 / 16))
          let s3 ← b64decChar (b64alphChar (b2 % 16 * 4))
          some [s1 * 4 + s2 / 16, s2 % 16 * 16 + s3 / 4]) from rfl]
    rw [b64decChar_alph _ (by omega), b64decChar_alph _ (by omega),
      b64decChar_alph _ (by omega)]
    show some [b1 / 4 * 4 + (b1 % 4 * 16 + b2 / 16) / 16,
      (b1 % 4 * 16 + b2 / 16) % 16 * 16 + b2 % 16 * 4 / 4] = some [b1, b2]
    simp only [Option.some.injEq, List.cons.injEq, and_true]
    refine ⟨by omega, by omega⟩
  | case4 b1 b2 b3 rest ih =>
    intro hb
    have h1 : b1 < 256 := hb b1 (by simp)
    have h2 : b2 < 256 := hb b2 (by simp)
    have h3 : b3 < 256 := hb b3 (by simp)
    have ihr := ih (fun b hbm => hb b (by simp [hbm]))
    rw [show b64body b64alphChar (b1 :: b2 :: b3 :: rest) =
        b64alphChar (b1 / 4) :: b64alphChar (b1 % 4 * 16 + b2 / 16) ::
        b64alphChar (b2 % 16 * 4 + b3 / 64) :: b64alphChar (b3 % 64) ::
        b64body b64alphChar rest from rfl]
    rw [show b64decodeBody
        (b64alphChar (b1 / 4) :: b64alphChar (b1 % 4 * 16 + b2 / 16) ::
         b64alphChar (b2 % 16 * 4 + b3 / 64) :: b64alphChar (b3 % 64) ::
         b64body b64alphChar rest) =
        (do
          let s1 ← b64decChar (b64alphChar (b1 / 4))
          let s2 ← b64decChar (b64alphChar (b1 % 4 * 16 + b2 / 16))
          let s3 ← b64decChar (b64alphChar (b2 % 16 * 4 + b3 / 64))
          let s4 ← b64decChar (b64alphChar (b3 % 64))
          let tail ← b64decodeBody (b64body b64alphChar rest)
          some ((s1 * 4 + s2 / 16) :: (s2 % 16 * 16 + s3 / 4) :: (s3 % 4 * 64 + s4) :: tail))
        from ?_]
    · rw [b64decChar_alph _ (by omega), b64decChar_alph _ (by omega),
        b64decChar_alph _ (by omega), b64decChar_alph _ (by omega), ihr]
      show some ((b1 / 4 * 4 + (b1 % 4 * 16 + b2 / 16) / 16) ::
        ((b1 % 4 * 16 + b2 / 16) % 16 * 16 + (b2 % 16 * 4 + b3 / 64) / 4) ::
        ((b2 % 16 * 4 + b3 / 64) % 4 * 64 + b3 % 64) :: rest) =
        some (b1 :: b2 :: b3 :: rest)
      simp only [Option.some.injEq, List.cons.injEq, and_true]
      refine ⟨by omega, by omega, by omega⟩
    · cases hbody : b64body b64alphChar rest with
      | nil => rfl
      | cons x xs => rfl

theorem b64padOk_mod (L L' P : Nat) (h : L % 4 = L' % 4) :
    b64padOk L P = b64padOk L' P := by
  unfold b64padOk
  rw [h]

/-- The padding a standard encoding carries always satisfies the decoder's
positional padding rule. -/
theorem b64padOk_encode : ∀ bs : List Nat,
    b64padOk (b64body b64alphChar bs).length (b64pad bs).length = true := by
  intro bs
  induction bs using b64body.induct b64alphChar with
  | case1 => rfl
  | case2 b1 => rfl
  | case3 b1 b2 => rfl
  | case4 b1 b2 b3 rest ih =>
    have hmod : (b64body b64alphChar (b1 :: b2 :: b3 :: rest)).length % 4 =
        (b64body b64alphChar rest).length % 4 := by
      simp only [b64body, List.length_cons]
      omega
    rw [show b64pad (b1 :: b2 :: b3 :: rest) = b64pad rest from rfl,
      b64padOk_mod _ _ _ hmod]
    exact ih

/-- Model of `base64::decode ∘ base64::encode = id` on byte strings. -/
theorem b64_roundtrip (bs : List Nat) (hb : ∀ b ∈ bs, b < 256) :
    b64decodeChars (b64encodeChars bs) = some bs := by
  have hlen : (b64encodeChars bs).length - (b64body b64alphChar bs).length =
      (b64pad bs).length := by
    rw [b64encodeChars, List.length_append, Nat.add_sub_cancel_left]
  unfold b64decodeChars
  rw [b64strip_encode bs hb, hlen, b64padOk_encode bs, if_pos rfl,
    b64decodeBody_body bs hb]

/-! ## Helper lemmas: the header parsing loop -/

theorem takeWhile_mid (p : Char → Bool) (a : List Char) (x : Char) (b : List Char)
    (ha : ∀ c ∈ a, p c = true) (hx : p x = false) :
    (a ++ (x :: b)).takeWhile p = a := by
  induction a with
  | nil => simp [List.takeWhile_cons, hx]
  | cons y ys ih =>
    simp only [List.cons_append, List.takeWhile_cons, ha y (by simp), if_true]
    rw [ih (fun c hc => ha c (by simp [hc]))]

theorem dropWhile_mid (p : Char → Bool) (a : List Char) (x : Char) (b : List Char)
    (ha : ∀ c ∈ a, p c = true) (hx : p x = false) :
    (a ++ (x :: b)).dropWhile p = x :: b := by
  induction a with
  | nil => simp [List.dropWhile_cons, hx]
  | cons y ys ih =>
    simp only [List.cons_append, List.dropWhile_cons, ha y (by simp), if_true]
    exact ih (fun c hc => ha c (by simp [hc]))

theorem trimWs_of_no_ws {l : List Char} (h : ∀ c ∈ l, c.isWhitespace = false) :
    trimWs l = l := by
  rw [trimWs, dropWhile_of_all_false h, dropWhile_of_all_false (by
    intro c hc
    exact h c (List.mem_reverse.mp hc)), List.reverse_reverse]

/-- One iteration of the parsing loop on a well-formed serialized field. -/
theorem parse_step (fuel : Nat) (pre : List Char) (n0 : Char) (nt val rest : List Char)
    (h : Header)
    (hpre : ∀ c ∈ pre, isSep c = true)
    (hnc : ∀ c ∈ n0 :: nt, isSep c = false ∧ c ≠ '=')
    (hval : ∀ c ∈ val, c ≠ dq) :
    parseHeaderLoop (fuel + 1)
      (pre ++ (n0 :: (nt ++ ('=' :: (dq :: (val ++ (dq :: rest))))))) h =
      match applyAttr (n0 :: nt) val h with
      | some h' => parseHeaderLoop fuel (trimLeftWs rest) h'
      | none => none := by
  have hws : ∀ c ∈ n0 :: nt, c.isWhitespace = false := by
    intro c hc
    have hs := (hnc c hc).1
    simp only [isSep, Bool.or_eq_false_iff] at hs
    exact hs.2
  have hne : pre ++ (n0 :: (nt ++ ('=' :: (dq :: (val ++ (dq :: rest)))))) ≠ [] := by simp
  have hdrop1 : (pre ++ (n0 :: (nt ++ ('=' :: (dq :: (val ++ (dq :: rest))))))).dropWhile
      isSep = n0 :: (nt ++ ('=' :: (dq :: (val ++ (dq :: rest))))) := by
    rw [dropWhile_append_of_all hpre]
    exact List.dropWhile_cons_of_neg (by simp [(hnc n0 (by simp)).1])
  have htake : (n0 :: (nt ++ ('=' :: (dq :: (val ++ (dq :: rest)))))).takeWhile
      (fun c => c ≠ '=') = n0 :: nt := by
    have key := takeWhile_mid (fun c => decide (c ≠ '=')) (n0 :: nt) '='
      (dq :: (val ++ (dq :: rest))) (fun c hc => by simp [(hnc c hc).2]) (by simp)
    simpa using key
  have hdrop2 : (n0 :: (nt ++ ('=' :: (dq :: (val ++ (dq :: rest)))))).dropWhile
      (fun c => c ≠ '=') = '=' :: (dq :: (val ++ (dq :: rest))) := by
    have key := dropWhile_mid (fun c => decide (c ≠ '=')) (n0 :: nt) '='
      (dq :: (val ++ (dq :: rest))) (fun c hc => by simp [(hnc c hc).2]) (by simp)
    simpa using key
  have htrim1 : trimLeftWs (dq :: (val ++ (dq :: rest))) = dq :: (val ++ (dq :: rest)) :=
    List.dropWhile_cons_of_neg (by simp [dq, Char.isWhitespace])
  have htakev : (val ++ (dq :: rest)).takeWhile (fun c => c ≠ dq) = val :=
    takeWhile_mid _ val dq rest (fun c hc => by simp [hval c hc]) (by simp)
  have hdropv : (val ++ (dq :: rest)).dropWhile (fun c => c ≠ dq) = dq :: rest :=
    dropWhile_mid _ val dq rest (fun c hc => by simp [hval c hc]) (by simp)
  conv_lhs => rw [parseHeaderLoop]
  rw [if_neg hne]
  simp only [hdrop1, htake, hdrop2, trimWs_of_no_ws hws, htrim1, htakev, hdropv, if_pos rfl,
    if_true]

theorem fieldChars_length (f : List Char × List Char) :
    (fieldChars f).length = f.1.length + f.2.length + 3 := by
  simp [fieldChars]
  omega

theorem parseHeaderLoop_nil (fuel : Nat) (h : Header) (hf : 0 < fuel) :
    parseHeaderLoop fuel [] h = some h := by
  match fuel, hf with
  | f + 1, _ => simp [parseHeaderLoop]

/-- The parsing loop consumes a rendered non-empty field list, applying
each field in turn, for any sufficient fuel. -/
theorem parse_render : ∀ (fs : List (List Char × List Char)) (f : List Char × List Char)
    (fuel : Nat) (pre : List Char) (h : Header),
    (∀ g ∈ f :: fs, goodField g) → (∀ c ∈ pre, isSep c = true) →
    pre.length + (renderFields (f :: fs)).length < fuel →
    parseHeaderLoop fuel (pre ++ renderFields (f :: fs)) h = applyAllOpt (f :: fs) h := by
  intro fs
  induction fs with
  | nil =>
    intro f fuel pre h hgood hpre hlen
    obtain ⟨fn, fv⟩ := f
    obtain ⟨hne, hnc, hval, happ⟩ := hgood (fn, fv) (by simp)
    obtain ⟨n0, nt, rfl⟩ : ∃ n0 nt, fn = n0 :: nt := by
      cases fn with
      | nil => exact absurd rfl hne
      | cons n0 nt => exact ⟨n0, nt, rfl⟩
    have hlen4 : 4 ≤ (renderFields [(n0 :: nt, fv)]).length := by
      have he : (renderFields [(n0 :: nt, fv)]).length =
          (fieldChars ((n0 :: nt : List Char), fv)).length := by
        simp [renderFields]
      rw [he, fieldChars_length]
      simp only [List.length_cons]
      omega
    obtain ⟨fuel', rfl⟩ : ∃ fuel', fuel = fuel' + 1 := by
      cases fuel with
      | zero => omega
      | succ f' => exact ⟨f', rfl⟩
    have hshape : pre ++ renderFields [(n0 :: nt, fv)] =
        pre ++ (n0 :: (nt ++ ('=' :: (dq :: (fv ++ (dq :: [])))))) := by
      simp [renderFields, fieldChars]
    rw [hshape, parse_step fuel' pre n0 nt fv [] h hpre hnc hval]
    show _ = applyAllOpt [(n0 :: nt, fv)] h
    obtain ⟨h', hh'⟩ := happ h
    rw [show applyAllOpt [(n0 :: nt, fv)] h =
        (match applyAttr (n0 :: nt) fv h with
         | some h' => applyAllOpt [] h'
         | none => none) from rfl]
    rw [hh']
    have hfuel' : 0 < fuel' := by omega
    show parseHeaderLoop fuel' (trimLeftWs []) h' = some h'
    rw [show trimLeftWs [] = [] from rfl]
    exact parseHeaderLoop_nil fuel' h' hfuel'
  | cons g gs ih =>
    intro f fuel pre h hgood hpre hlen
    obtain ⟨fn, fv⟩ := f
    obtain ⟨hne, hnc, hval, happ⟩ := hgood (fn, fv) (by simp)
    obtain ⟨n0, nt, rfl⟩ : ∃ n0 nt, fn = n0 :: nt := by
      cases fn with
      | nil => exact absurd rfl hne
      | cons n0 nt => exact ⟨n0, nt, rfl⟩
    obtain ⟨fuel', rfl⟩ : ∃ fuel', fuel = fuel' + 1 := by
      cases fuel with
      | zero => omega
      | succ f' => exact ⟨f', rfl⟩
    have hshape : pre ++ renderFields ((n0 :: nt, fv) :: g :: gs) =
        pre ++ (n0 :: (nt ++ ('=' :: (dq :: (fv ++
          (dq :: (',' :: ' ' :: renderFields (g :: gs)))))))) := by
      simp [renderFields, fieldChars]
    rw [hshape, parse_step fuel' pre n0 nt fv (',' :: ' ' :: renderFields (g :: gs)) h
      hpre hnc hval]
    obtain ⟨h', hh'⟩ := happ h
    rw [show applyAllOpt ((n0 :: nt, fv) :: g :: gs) h =
        (match applyAttr (n0 :: nt) fv h with
         | some h' => applyAllOpt (g :: gs) h'
         | none => none) from rfl]
    rw [hh']
    show parseHeaderLoop fuel' (trimLeftWs (',' :: ' ' :: renderFields (g :: gs))) h' = _
    rw [show trimLeftWs (',' :: ' ' :: renderFields (g :: gs)) =
        ',' :: ' ' :: renderFields (g :: gs) from
      List.dropWhile_cons_of_neg (by simp [Char.isWhitespace])]
    rw [show (',' :: ' ' :: renderFields (g :: gs) : List Char) =
        [',', ' '] ++ renderFields (g :: gs) from rfl]
    refine ih g fuel' [',', ' '] h' (fun x hx => hgood x (by simp [hx])) (by decide) ?_
    have hlen2 : (renderFields ((n0 :: nt, fv) :: g :: gs)).length =
        (fieldChars (n0 :: nt, fv)).length + 2 + (renderFields (g :: gs)).length := by
      simp [renderFields]
      omega
    have hf4 : 4 ≤ (fieldChars ((n0 :: nt : List Char), fv)).length := by
      rw [fieldChars_length]
      simp only [List.length_cons]
      omega
    show 2 + (renderFields (g :: gs)).length < fuel'
    omega

theorem applyAllOpt_append (a b : List (List Char × List Char)) (acc : Header) :
    applyAllOpt (a ++ b) acc = (applyAllOpt a acc).bind (fun acc' => applyAllOpt b acc') := by
  induction a generalizing acc with
  | nil => simp [applyAllOpt]
  | cons f fs ih =>
    show applyAllOpt (f :: (fs ++ b)) acc = _
    rw [show applyAllOpt (f :: (fs ++ b)) acc =
        (match applyAttr f.1 f.2 acc with
         | some h' => applyAllOpt (fs ++ b) h'
         | none => none) from rfl]
    cases happ : applyAttr f.1 f.2 acc with
    | none => simp [applyAllOpt, happ]
    | some h' => simp [applyAllOpt, happ, ih]

theorem applyAttr_id (val : List Char) (acc : Header) :
    applyAttr "id".data val acc = some { acc with id := some (String.mk val) } := rfl

theorem applyAttr_ts (val : List Char) (acc : Header) :
    applyAttr "ts".data val acc =
      match i64FromStr val with
      | some epoch => some { acc with ts := some ⟨epoch, 0⟩ }
      | none => none := rfl

theorem applyAttr_nonce (val : List Char) (acc : Header) :
    applyAttr "nonce".data val acc = some { acc with nonce := some (String.mk val) } := rfl

theorem applyAttr_mac (val : List Char) (acc : Header) :
    applyAttr "mac".data val acc =
      match b64decodeChars val with
      | some m => some { acc with mac := some m }
      | none => none := rfl

theorem applyAttr_ext (val : List Char) (acc : Header) :
    applyAttr "ext".data val acc = some { acc with ext := some (String.mk val) } := rfl

theorem applyAttr_hash (val : List Char) (acc : Header) :
    applyAttr "hash".data val acc =
      match b64decodeChars val with
      | some m => some { acc with hash := some m }
      | none => none := rfl

theorem applyAttr_app (val : List Char) (acc : Header) :
    applyAttr "app".data val acc = some { acc with app := some (String.mk val) } := rfl

theorem applyAttr_dlg (val : List Char) (acc : Header) :
    applyAttr "dlg".data val acc = some { acc with dlg := some (String.mk val) } := rfl

theorem stringMk_data (s : String) : String.mk s.data = s := rfl

theorem applyAll_chunk_id (o : Option String) (acc : Header) :
    applyAllOpt (optField "id".data (o.map String.data)) acc =
      some { acc with id := o.or acc.id } := by
  cases o <;> rfl

theorem applyAll_chunk_ts (o : Option Timespec)
    (hts : ∀ t, o = some t → t.nsec = 0 ∧ -(2 ^ 63) ≤ t.sec ∧ t.sec < 2 ^ 63)
    (acc : Header) :
    applyAllOpt (optField "ts".data (o.map (fun t => intToDecimalChars t.sec))) acc =
      some { acc with ts := o.or acc.ts } := by
  cases o with
  | none => rfl
  | some t =>
    obtain ⟨s, n⟩ := t
    obtain ⟨h0, hlo, hhi⟩ := hts ⟨s, n⟩ rfl
    simp only at h0 hlo hhi
    subst h0
    show (match applyAttr "ts".data (intToDecimalChars s) acc with
          | some h' => applyAllOpt [] h'
          | none => none) = _
    rw [applyAttr_ts, i64FromStr_roundtrip s hlo hhi]
    rfl

theorem applyAll_chunk_nonce (o : Option String) (acc : Header) :
    applyAllOpt (optField "nonce".data (o.map String.data)) acc =
      some { acc with nonce := o.or acc.nonce } := by
  cases o <;> rfl

theorem applyAll_chunk_mac (o : Option (List Nat))
    (hb : ∀ m, o = some m → ∀ b ∈ m, b < 256) (acc : Header) :
    applyAllOpt (optField "mac".data (o.map b64encodeChars)) acc =
      some { acc with mac := o.or acc.mac } := by
  cases o with
  | none => rfl
  | some m =>
    show (match applyAttr "mac".data (b64encodeChars m) acc with
          | some h' => applyAllOpt [] h'
          | none => none) = _
    rw [applyAttr_mac, b64_roundtrip m (hb m rfl)]
    rfl

theorem applyAll_chunk_ext (o : Option String) (acc : Header) :
    applyAllOpt (optField "ext".data (o.map String.data)) acc =
      some { acc with ext := o.or acc.ext } := by
  cases o <;> rfl

theorem applyAll_chunk_hash (o : Option (List Nat))
    (hb : ∀ m, o = some m → ∀ b ∈ m, b < 256) (acc : Header) :
    applyAllOpt (optField "hash".data (o.map b64encodeChars)) acc =
      some { acc with hash := o.or acc.hash } := by
  cases o with
  | none => rfl
  | some m =>
    show (match applyAttr "hash".data (b64encodeChars m) acc with
          | some h' => applyAllOpt [] h'
          | none => none) = _
    rw [applyAttr_hash, b64_roundtrip m (hb m rfl)]
    rfl

theorem applyAll_chunk_app (o : Option String) (acc : Header) :
    applyAllOpt (optField "app".data (o.map String.data)) acc =
      some { acc with app := o.or acc.app } := by
  cases o <;> rfl

theorem applyAll_chunk_dlg (o : Option String) (acc : Header) :
    applyAllOpt (optField "dlg".data (o.map String.data)) acc =
      some { acc with dlg := o.or acc.dlg } := by
  cases o <;> rfl

/-- Applying the rendered field list of `h` to the empty header rebuilds
`h` (whole-second timestamps, byte-valued mac/hash). -/
theorem applyAll_fieldList (h : Header)
    (hts : ∀ t, h.ts = some t → t.nsec = 0 ∧ -(2 ^ 63) ≤ t.sec ∧ t.sec < 2 ^ 63)
    (hmac : ∀ m, h.mac = some m → ∀ b ∈ m, b < 256)
    (hhash : ∀ m, h.hash = some m → ∀ b ∈ m, b < 256) :
    applyAllOpt (headerFieldList h) Header.empty = some h := by
  obtain ⟨id, ts, nonce, mac, ext, hash, app, dlg⟩ := h
  simp only at hts hmac hhash
  simp only [headerFieldList, applyAllOpt_append, applyAll_chunk_id id,
    applyAll_chunk_ts ts hts, applyAll_chunk_nonce nonce, applyAll_chunk_mac mac hmac,
    applyAll_chunk_ext ext, applyAll_chunk_hash hash hhash, applyAll_chunk_app app,
    applyAll_chunk_dlg dlg, Option.some_bind]
  simp [Header.empty, Option.or_none]

theorem b64pad_mem : ∀ (bs : List Nat), ∀ c ∈ b64pad bs, c = '=' := by
  intro bs
  induction bs using b64pad.induct with
  | case1 => simp [b64pad]
  | case2 b1 => simp [b64pad]
  | case3 b1 b2 => simp [b64pad]
  | case4 b1 b2 b3 rest ih => simpa [b64pad] using ih

theorem b64encodeChars_ne_dq {m : List Nat} (hb : ∀ b ∈ m, b < 256) :
    ∀ c ∈ b64encodeChars m, c ≠ dq := by
  intro c hc
  rcases List.mem_append.mp hc with hcb | hcp
  · obtain ⟨i, hi, rfl⟩ := b64body_mem m hb c hcb
    exact b64alph_ne_dq i hi
  · rw [b64pad_mem m c hcp]
    decide

theorem isDigit_ne_dq {c : Char} (hc : c.isDigit = true) : c ≠ dq := by
  intro h
  subst h
  exact absurd hc (by decide)

theorem intToDecimalChars_ne_dq (v : Int) : ∀ c ∈ intToDecimalChars v, c ≠ dq := by
  intro c hc
  rw [intToDecimalChars] at hc
  by_cases hv : v < 0
  · rw [if_pos hv] at hc
    rcases List.mem_cons.mp hc with rfl | hc
    · decide
    · exact isDigit_ne_dq (natToDigits_digits _ c hc)
  · rw [if_neg hv] at hc
    exact isDigit_ne_dq (natToDigits_digits _ c hc)

/-- Every rendered header field is well formed for the parsing loop. -/
theorem goodFields_fieldList (h : Header)
    (hq : ∀ s : String, (h.id = some s ∨ h.nonce = some s ∨ h.ext = some s ∨
      h.app = some s ∨ h.dlg = some s) → ∀ c ∈ s.data, c ≠ dq)
    (hts : ∀ t, h.ts = some t → t.nsec = 0 ∧ -(2 ^ 63) ≤ t.sec ∧ t.sec < 2 ^ 63)
    (hmac : ∀ m, h.mac = some m → ∀ b ∈ m, b < 256)
    (hhash : ∀ m, h.hash = some m → ∀ b ∈ m, b < 256) :
    ∀ g ∈ headerFieldList h, goodField g := by
  intro g hg
  simp only [headerFieldList, List.mem_append] at hg
  rcases hg with ((((((hg | hg) | hg) | hg) | hg) | hg) | hg) | hg
  · -- id
    cases hid : h.id with
    | none => rw [hid] at hg; simp [optField] at hg
    | some v =>
      rw [hid] at hg
      simp only [Option.map_some', optField, List.mem_singleton] at hg
      subst hg
      refine ⟨?_, ?_, hq v (Or.inl hid), fun acc => ⟨_, applyAttr_id _ _⟩⟩
      · show (['i', 'd'] : List Char) ≠ []
        decide
      · show ∀ c ∈ (['i', 'd'] : List Char), isSep c = false ∧ c ≠ '='
        decide
  · -- ts
    cases hts' : h.ts with
    | none => rw [hts'] at hg; simp [optField] at hg
    | some t =>
      rw [hts'] at hg
      simp only [Option.map_some', optField, List.mem_singleton] at hg
      subst hg
      obtain ⟨h0, hlo, hhi⟩ := hts t hts'
      refine ⟨?_, ?_, intToDecimalChars_ne_dq t.sec, fun acc =>
        ⟨{ acc with ts := some ⟨t.sec, 0⟩ }, by
          rw [applyAttr_ts, i64FromStr_roundtrip t.sec hlo hhi]⟩⟩
      · show (['t', 's'] : List Char) ≠ []
        decide
      · show ∀ c ∈ (['t', 's'] : List Char), isSep c = false ∧ c ≠ '='
        decide
  · -- nonce
    cases hn : h.nonce with
    | none => rw [hn] at hg; simp [optField] at hg
    | some v =>
      rw [hn] at hg
      simp only [Option.map_some', optField, List.mem_singleton] at hg
      subst hg
      refine ⟨?_, ?_, hq v (Or.inr (Or.inl hn)), fun acc => ⟨_, applyAttr_nonce _ _⟩⟩
      · show (['n', 'o', 'n', 'c', 'e'] : List Char) ≠ []
        decide
      · show ∀ c ∈ (['n', 'o', 'n', 'c', 'e'] : List Char), isSep c = false ∧ c ≠ '='
        decide
  · -- mac
    cases hm : h.mac with
    | none => rw [hm] at hg; simp [optField] at hg
    | some m =>
      rw [hm] at hg
      simp only [Option.map_some', optField, List.mem_singleton] at hg
      subst hg
      refine ⟨?_, ?_, b64encodeChars_ne_dq (hmac m hm), fun acc =>
        ⟨{ acc with mac := some m }, by rw [applyAttr_mac, b64_roundtrip m (hmac m hm)]⟩⟩
      · show (['m', 'a', 'c'] : List Char) ≠ []
        decide
      · show ∀ c ∈ (['m', 'a', 'c'] : List Char), isSep c = false ∧ c ≠ '='
        decide
  · -- ext
    cases he : h.ext with
    | none => rw [he] at hg; simp [optField] at hg
    | some v =>
      rw [he] at hg
      simp only [Option.map_some', optField, List.mem_singleton] at hg
      subst hg
      refine ⟨?_, ?_, hq v (Or.inr (Or.inr (Or.inl he))), fun acc =>
        ⟨_, applyAttr_ext _ _⟩⟩
      · show (['e', 'x', 't'] : List Char) ≠ []
        decide
      · show ∀ c ∈ (['e', 'x', 't'] : List Char), isSep c = false ∧ c ≠ '='
        decide
  · -- hash
    cases hh : h.hash with
    | none => rw [hh] at hg; simp [optField] at hg
    | some m =>
      rw [hh] at hg
      simp only [Option.map_some', optField, List.mem_singleton] at hg
      subst hg
      refine ⟨?_, ?_, b64encodeChars_ne_dq (hhash m hh), fun acc =>
        ⟨{ acc with hash := some m }, by rw [applyAttr_hash, b64_roundtrip m (hhash m hh)]⟩⟩
      · show (['h', 'a', 's', 'h'] : List Char) ≠ []
        decide
      · show ∀ c ∈ (['h', 'a', 's', 'h'] : List Char), isSep c = false ∧ c ≠ '='
        decide
  · -- app
    cases ha : h.app with
    | none => rw [ha] at hg; simp [optField] at hg
    | some v =>
      rw [ha] at hg
      simp only [Option.map_some', optField, List.mem_singleton] at hg
      subst hg
      refine ⟨?_, ?_, hq v (Or.inr (Or.inr (Or.inr (Or.inl ha)))), fun acc =>
        ⟨_, applyAttr_app _ _⟩⟩
      · show (['a', 'p', 'p'] : List Char) ≠ []
        decide
      · show ∀ c ∈ (['a', 'p', 'p'] : List Char), isSep c = false ∧ c ≠ '='
        decide
  · -- dlg
    cases hd : h.dlg with
    | none => rw [hd] at hg; simp [optField] at hg
    | some v =>
      rw [hd] at hg
      simp only [Option.map_some', optField, List.mem_singleton] at hg
      subst hg
      refine ⟨?_, ?_, hq v (Or.inr (Or.inr (Or.inr (Or.inr hd)))), fun acc =>
        ⟨_, applyAttr_dlg _ _⟩⟩
      · show (['d', 'l', 'g'] : List Char) ≠ []
        decide
      · show ∀ c ∈ (['d', 'l', 'g'] : List Char), isSep c = false ∧ c ≠ '='
        decide

theorem checkComponent_inv {v w : Option String} (h : checkComponent v = some w) :
    w = v ∧ ∀ s, v = some s → ∀ c ∈ s.data, c ≠ dq := by
  cases v with
  | none =>
    simp only [checkComponent, Option.some.injEq] at h
    exact ⟨h.symm, by simp⟩
  | some s =>
    rw [checkComponent] at h
    by_cases hqs : s.data.any (fun c => c = dq) = true
    · rw [if_pos hqs] at h
      exact absurd h (by simp)
    · rw [if_neg hqs] at h
      injection h with h
      refine ⟨h.symm, ?_⟩
      intro s' hs' c hc
      obtain rfl : s = s' := by injection hs'
      simp only [Bool.not_eq_true] at hqs
      have hne := List.any_eq_false.mp hqs c hc
      simpa using hne

/-- Inverting a successful `Header::new`: the result carries exactly the
given fields and its string components are quote-free. -/
theorem headerNew_inv {id ts nonce mac ext hash app dlg h}
    (hnew : Header.new id ts nonce mac ext hash app dlg = some h) :
    h = ⟨id, ts, nonce, mac, ext, hash, app, dlg⟩ ∧
    (∀ s : String, (id = some s ∨ nonce = some s ∨ ext = some s ∨
      app = some s ∨ dlg = some s) → ∀ c ∈ s.data, c ≠ dq) := by
  cases hid : checkComponent id with
  | none => rw [Header.new, hid] at hnew; exact absurd hnew (by simp)
  | some i =>
  cases hn : checkComponent nonce with
  | none => rw [Header.new, hid, hn] at hnew; exact absurd hnew (by simp)
  | some n =>
  cases he : checkComponent ext with
  | none => rw [Header.new, hid, hn, he] at hnew; exact absurd hnew (by simp)
  | some e =>
  cases ha : checkComponent app with
  | none => rw [Header.new, hid, hn, he, ha] at hnew; exact absurd hnew (by simp)
  | some a =>
  cases hd : checkComponent dlg with
  | none => rw [Header.new, hid, hn, he, ha, hd] at hnew; exact absurd hnew (by simp)
  | some d =>
  rw [Header.new, hid, hn, he, ha, hd] at hnew
  have hinj : (⟨i, ts, n, mac, e, hash, a, d⟩ : Header) = h := Option.some.inj hnew
  obtain ⟨hieq, hiq⟩ := checkComponent_inv hid
  obtain ⟨hneq, hnq⟩ := checkComponent_inv hn
  obtain ⟨heeq, heq2⟩ := checkComponent_inv he
  obtain ⟨haeq, haq⟩ := checkComponent_inv ha
  obtain ⟨hdeq, hdq2⟩ := checkComponent_inv hd
  subst hieq hneq heeq haeq hdeq
  refine ⟨hinj.symm, ?_⟩
  intro s hs c hc
  rcases hs with hs | hs | hs | hs | hs
  · exact hiq s hs c hc
  · exact hnq s hs c hc
  · exact heq2 s hs c hc
  · exact haq s hs c hc
  · exact hdq2 s hs c hc

theorem optField_eq_nil {name : List Char} {o : Option (List Char)} :
    optField name o = [] ↔ o = none := by
  cases o with
  | none => exact ⟨fun _ => rfl, fun _ => rfl⟩
  | some v => simp [optField]

/-- C3 (amended): for every header that `Header::new` constructs without
error, parsing the serialized form reproduces the header, provided its
timestamp (when present) has a zero sub-second part. Two side conditions
reflect the Rust representation in this unbounded-integer model: the
timestamp seconds lie in the `i64` range and mac/hash entries are bytes.
The unamended claim fails because serialization renders only whole
seconds, so a non-zero `nsec` is lost (see the counterexample). -/
theorem header_roundtrip_whole_seconds
    (id : Option String) (ts : Option Timespec) (nonce : Option String)
    (mac : Option (List Nat)) (ext : Option String) (hash : Option (List Nat))
    (app : Option String) (dlg : Option String) (h : Header)
    (hnew : Header.new id ts nonce mac ext hash app dlg = some h)
    (htsw : ∀ t, ts = some t → t.nsec = 0 ∧ -(2 ^ 63) ≤ t.sec ∧ t.sec < 2 ^ 63)
    (hmacw : ∀ m, mac = some m → ∀ b ∈ m, b < 256)
    (hhashw : ∀ m, hash = some m → ∀ b ∈ m, b < 256) :
    Header.fromStr (Header.fmtHeader h) = some h := by
  obtain ⟨rfl, hq⟩ := headerNew_inv hnew
  cases hfl : headerFieldList ⟨id, ts, nonce, mac, ext, hash, app, dlg⟩ with
  | nil =>
    simp only [headerFieldList, List.append_eq_nil, optField_eq_nil,
      Option.map_eq_none'] at hfl
    obtain ⟨⟨⟨⟨⟨⟨⟨h1, h2⟩, h3⟩, h4⟩, h5⟩, h6⟩, h7⟩, h8⟩ := hfl
    subst h1 h2 h3 h4 h5 h6 h7 h8
    rfl
  | cons f fs =>
    rw [show Header.fromStr
        (Header.fmtHeader ⟨id, ts, nonce, mac, ext, hash, app, dlg⟩) =
        parseHeaderLoop
          ((renderFields (headerFieldList ⟨id, ts, nonce, mac, ext, hash, app, dlg⟩)).length
            + 1)
          (renderFields (headerFieldList ⟨id, ts, nonce, mac, ext, hash, app, dlg⟩))
          Header.empty from rfl]
    rw [hfl]
    have hres := parse_render fs f ((renderFields (f :: fs)).length + 1) [] Header.empty
      (by rw [← hfl]; exact goodFields_fieldList _ hq htsw hmacw hhashw)
      (by simp)
      (by simp)
    rw [List.nil_append] at hres
    rw [hres, ← hfl]
    exact applyAll_fieldList _ htsw hmacw hhashw

/-! ## Helper lemmas: validators, payload hasher, timestamps -/

theorem tsLt_eq_decide_nanos (a b : Timespec) (ha0 : 0 ≤ a.nsec) (ha1 : a.nsec < 1000000000)
    (hb0 : 0 ≤ b.nsec) (hb1 : b.nsec < 1000000000) :
    tsLt a b = decide (tsNanos a < tsNanos b) := by
  have hiff : (a.sec < b.sec ∨ (a.sec = b.sec ∧ a.nsec < b.nsec)) ↔
      tsNanos a < tsNanos b := by
    rw [tsNanos, tsNanos]
    omega
  calc tsLt a b = decide (a.sec < b.sec ∨ (a.sec = b.sec ∧ a.nsec < b.nsec)) := by
        simp [tsLt]
    _ = decide (tsNanos a < tsNanos b) := decide_eq_decide.mpr hiff

theorem foldl_update (chunks : List (List Nat)) (h : PayloadHasher) :
    chunks.foldl PayloadHasher.update h = ⟨h.digest, h.acc ++ chunks.flatten⟩ := by
  induction chunks generalizing h with
  | nil =>
    obtain ⟨d, acc⟩ := h
    simp
  | cons c cs ih =>
    rw [List.foldl_cons, ih]
    simp [PayloadHasher.update]

/-! ## Claims -/

/-- C1: the claim that `validate_header`/`validate_bewit` always return a
boolean fails on the code: a wire MAC whose byte length differs from the
digest's output length reaches `openssl::memcmp::eq`, whose length assert
panics (modelled as `none`). Here the key digests to 2 bytes while the
header/bewit carry a 3-byte MAC. -/
theorem validate_panics_on_mac_length_mismatch :
    Request.validateHeader reqT hdrPanic keyT 60000000000 ⟨1000, 0⟩ = none ∧
    Request.validateBewit reqT bwPanic keyT ⟨1000, 0⟩ = none := ⟨rfl, rfl⟩

/-- C2: the bewit round trip fails on the code: `to_str` encodes with the
URL-safe alphabet but `from_str` decodes with the standard alphabet, so a
bewit whose encoding contains `-` (id `"~~~"`) cannot be decoded back. -/
theorem bewit_roundtrip_alphabet_mismatch :
    Bewit.toStr bwTilde = "fn5-XDBcXA" ∧ Bewit.fromStr "fn5-XDBcXA" = none ∧
    Bewit.fromStr (Bewit.toStr bwTilde) = none := ⟨rfl, rfl, rfl⟩

/-- C4: the canonical byte sequence handed to the signer is exactly nine
newline-terminated lines in fixed order: type tag, decimal `ts` seconds,
nonce, method, path, host, decimal port, standard base64 of `hash` (empty
line when absent), `ext` (empty line when absent). -/
theorem mac_canonical_nine_lines (key : Key) (p : MacParams) :
    macNewSigned key p = key.sign (macParamsString p) ∧
    macParamsString p = String.join
      ([p.macType.tag, intToDecimalString p.ts.sec, p.nonce, p.method, p.path, p.host,
        intToDecimalString (p.port : Int),
        (match p.hash with
         | some h => String.mk (b64encodeChars h)
         | none => ""),
        (match p.ext with
         | some e => e
         | none => "")].map (fun l => l ++ "\n")) := by
  refine ⟨rfl, ?_⟩
  simp [String.join, macParamsString, String.append_assoc]

/-- C5: `validate_bewit` returns `true` exactly when the recomputed MAC
(type `Bewit`, empty nonce, the request's method/host/port/path/hash, the
bewit's ext, the bewit's exp as ts) equals the bewit's MAC and the expiry
is not strictly earlier than `now` (equality still validates). -/
theorem validateBewit_iff (r : Request) (b : Bewit) (key : Key) (now : Timespec)
    (m : List Nat)
    (hsign : key.sign (macParamsString (bewitMacParams r b.exp b.ext)) = some m) :
    Request.validateBewit r b key now = some true ↔
      (b.mac = m ∧ tsLt b.exp now = false) := by
  unfold Request.validateBewit
  rw [show macNewSigned key (bewitMacParams r b.exp b.ext) = some m from hsign]
  show (match memcmpEq b.mac m with
        | none => none
        | some macsEqual =>
          if (!macsEqual) = true then some false
          else if tsLt b.exp now = true then some false else some true) = some true ↔ _
  unfold memcmpEq
  by_cases hl : b.mac.length = m.length
  · rw [if_pos hl]
    show (if (!decide (b.mac = m)) = true then some false
          else if tsLt b.exp now = true then some false else some true) = some true ↔ _
    by_cases he : b.mac = m
    · simp only [he, decide_True, Bool.not_true, Bool.false_eq_true, if_false, true_and]
      by_cases ht : tsLt b.exp now
      · simp [ht]
      · simp [ht]
    · simp [he]
  · rw [if_neg hl]
    show (none : Option Bool) = some true ↔ _
    constructor
    · intro hcontra
      exact absurd hcontra (by simp)
    · intro hand
      exact absurd (congrArg List.length hand.1) hl

/-- C9: the payload hasher is chunk invariant: streaming any chunking of a
payload yields the digest of the one-shot hash of the whole payload. -/
theorem payload_chunk_invariance (ct : List Nat) (d : Digest) (payload : List Nat)
    (chunks : List (List Nat)) (hjoin : chunks.flatten = payload) :
    (chunks.foldl PayloadHasher.update (PayloadHasher.new ct d)).finish =
      PayloadHasher.hash ct d payload := by
  subst hjoin
  rw [foldl_update]
  simp [PayloadHasher.hash, PayloadHasher.new, PayloadHasher.update, PayloadHasher.finish,
    List.append_assoc]

/-- C6: with ts, nonce and mac present, a successful MAC comparison and a
passing hash check, `validate_header` is decided symmetrically by clock
skew: it returns `true` exactly when `|now - header.ts| ≤ ts_skew`. -/
theorem validateHeader_skew_symmetric (r : Request) (h : Header) (key : Key)
    (tsSkew : Int) (now : Timespec) (ts : Timespec) (nonce : String) (m : List Nat)
    (hts : h.ts = some ts) (hn : h.nonce = some nonce) (hm : h.mac = some m)
    (hsign : key.sign (macParamsString (headerMacParams r ts nonce h.hash h.ext)) = some m)
    (hhash : hashCheckOk r.hash h.hash = true)
    (hts0 : 0 ≤ ts.nsec) (hts1 : ts.nsec < 1000000000)
    (hnow0 : 0 ≤ now.nsec) (hnow1 : now.nsec < 1000000000) :
    Request.validateHeader r h key tsSkew now =
      some (decide (|tsNanos now - tsNanos ts| ≤ tsSkew)) := by
  unfold Request.validateHeader
  rw [hts, hn, hm]
  show (match macNewSigned key (headerMacParams r ts nonce h.hash h.ext) with
        | none => some false
        | some calculatedMac =>
          match memcmpEq calculatedMac m with
          | none => none
          | some macsEqual =>
            if (!macsEqual) = true then some false
            else
              let tsCheck : Option Bool :=
                let skew : Int := if tsLt ts now then tsSub now ts else tsSub ts now
                if skew > tsSkew then some false else some true
              match r.hash with
              | some localHash =>
                match h.hash with
                | some serverHash =>
                  if localHash ≠ serverHash then some false else tsCheck
                | none => some false
              | none => tsCheck) = _
  rw [show macNewSigned key (headerMacParams r ts nonce h.hash h.ext) = some m from hsign]
  show (match memcmpEq m m with
        | none => none
        | some macsEqual =>
          if (!macsEqual) = true then some false
          else
            let tsCheck : Option Bool :=
              let skew : Int := if tsLt ts now then tsSub now ts else tsSub ts now
              if skew > tsSkew then some false else some true
            match r.hash with
            | some localHash =>
              match h.hash with
              | some serverHash =>
                if localHash ≠ serverHash then some false else tsCheck
              | none => some false
            | none => tsCheck) = _
  rw [show memcmpEq m m = some true by simp [memcmpEq]]
  show (let tsCheck : Option Bool :=
          let skew : Int := if tsLt ts now then tsSub now ts else tsSub ts now
          if skew > tsSkew then some false else some true
        match r.hash with
        | some localHash =>
          match h.hash with
          | some serverHash =>
            if localHash ≠ serverHash then some false else tsCheck
          | none => some false
        | none => tsCheck) = _
  have htscheck : (if (if tsLt ts now then tsSub now ts else tsSub ts now) > tsSkew then
      (some false : Option Bool) else some true) =
      some (decide (|tsNanos now - tsNanos ts| ≤ tsSkew)) := by
    rw [tsLt_eq_decide_nanos ts now hts0 hts1 hnow0 hnow1]
    have habs : |tsNanos now - tsNanos ts| =
        if tsNanos ts < tsNanos now then tsSub now ts else tsSub ts now := by
      rw [tsSub, tsSub]
      by_cases hc : tsNanos ts < tsNanos now
      · rw [if_pos hc, abs_of_pos (by omega)]
      · rw [if_neg hc, abs_of_nonpos (by omega), neg_sub]
    by_cases hc : tsNanos ts < tsNanos now
    · simp only [hc, decide_True, if_true, habs]
      by_cases hgt : tsSub now ts > tsSkew
      · rw [if_pos hgt]
        simp
        omega
      · rw [if_neg hgt]
        simp
        omega
    · simp only [hc, decide_False, Bool.false_eq_true, if_false, habs]
      by_cases hgt : tsSub ts now > tsSkew
      · rw [if_pos hgt]
        simp
        omega
      · rw [if_neg hgt]
        simp
        omega
  cases hrh : r.hash with
  | none => simpa using htscheck
  | some localHash =>
    cases hhh : h.hash with
    | none =>
      rw [hrh, hhh] at hhash
      simp [hashCheckOk] at hhash
    | some serverHash =>
      rw [hrh, hhh] at hhash
      have heq : localHash = serverHash := by
        simpa [hashCheckOk] using hhash
      simp only [heq, ne_eq, not_true_eq_false, if_false]
      simpa using htscheck

/-- C8: `validate_header` ignores the header's `id`, `app` and `dlg`
fields, and `validate_bewit` ignores the bewit's `id`. -/
theorem validate_ignores_identity_fields :
    (∀ (r : Request) (key : Key) (tsSkew : Int) (now : Timespec) (h1 h2 : Header),
      h2.ts = h1.ts → h2.nonce = h1.nonce → h2.mac = h1.mac → h2.hash = h1.hash →
      h2.ext = h1.ext →
      Request.validateHeader r h1 key tsSkew now =
        Request.validateHeader r h2 key tsSkew now) ∧
    (∀ (r : Request) (key : Key) (now : Timespec) (b : Bewit) (id2 : String),
      Request.validateBewit r ⟨id2, b.exp, b.mac, b.ext⟩ key now =
        Request.validateBewit r b key now) := by
  constructor
  · intro r key tsSkew now h1 h2 e1 e2 e3 e4 e5
    unfold Request.validateHeader
    rw [e1, e2, e3, e4, e5]
  · intro r key now b id2
    rfl

/-- C10: `make_bewit` binds `exp = now + ttl` into the MAC as its `ts`
parameter (type `Bewit`, empty nonce), and `validate_bewit` recomputes the
MAC over `bewit.exp`; when validation succeeds the recomputed MAC equals
the carried one, so the carried `exp` is exactly the authenticated
timestamp. -/
theorem bewit_exp_bound_into_mac :
    (∀ (r : Request) (c : Credentials) (ttl : Int) (now : Timespec) (bw : Bewit),
      Request.makeBewit r c ttl now = some bw →
      bw.exp = tsAdd now ttl ∧ bw.ext = r.ext ∧ bw.id = c.id ∧
      c.key.sign (macParamsString (bewitMacParams r bw.exp bw.ext)) = some bw.mac) ∧
    (∀ (r : Request) (b : Bewit) (key : Key) (now : Timespec) (m : List Nat),
      key.sign (macParamsString (bewitMacParams r b.exp b.ext)) = some m →
      Request.validateBewit r b key now = some true → m = b.mac) := by
  constructor
  · intro r c ttl now bw hmk
    unfold Request.makeBewit at hmk
    have hmk' : (match macNewSigned c.key (bewitMacParams r (tsAdd now ttl) r.ext) with
        | none => none
        | some mac => some (⟨c.id, tsAdd now ttl, mac, r.ext⟩ : Bewit)) = some bw := hmk
    cases hs : macNewSigned c.key (bewitMacParams r (tsAdd now ttl) r.ext) with
    | none =>
      rw [hs] at hmk'
      exact absurd hmk' (by simp)
    | some m =>
      rw [hs] at hmk'
      have hbw : (⟨c.id, tsAdd now ttl, m, r.ext⟩ : Bewit) = bw := Option.some.inj hmk'
      subst hbw
      exact ⟨rfl, rfl, rfl, hs⟩
  · intro r b key now m hs hv
    unfold Request.validateBewit at hv
    rw [show macNewSigned key (bewitMacParams r b.exp b.ext) = some m from hs] at hv
    have hv' : (match memcmpEq b.mac m with
        | none => none
        | some macsEqual =>
          if (!macsEqual) = true then some false
          else if tsLt b.exp now = true then some false else some true) = some true := hv
    by_cases hl : b.mac.length = m.length
    · rw [show memcmpEq b.mac m = some (decide (b.mac = m)) by simp [memcmpEq, hl]] at hv'
      by_cases he : b.mac = m
      · exact he.symm
      · simp [he] at hv'
    · rw [show memcmpEq b.mac m = none by simp [memcmpEq, hl]] at hv'
      exact absurd hv' (by simp)

set_option maxRecDepth 10000 in
/-- C3 counterexample: a header whose `ts` has a non-zero sub-second part
is constructible by `Header::new` (no string component at all), but
`parse(serialize(h))` truncates `ts` to whole seconds and differs from
`h`. -/
theorem header_roundtrip_fails_on_subsecond_ts :
    Header.new none (some ⟨0, 1⟩) none none none none none none = some hdrSubSec ∧
    Header.fmtHeader hdrSubSec = "ts=\"0\"" ∧
    Header.fromStr (Header.fmtHeader hdrSubSec) =
      some ⟨none, some ⟨0, 0⟩, none, none, none, none, none, none⟩ ∧
    Header.fromStr (Header.fmtHeader hdrSubSec) ≠ some hdrSubSec := by
  refine ⟨rfl, rfl, by rfl, ?_⟩
  have h2 : Header.fromStr (Header.fmtHeader hdrSubSec) =
      some ⟨none, some ⟨0, 0⟩, none, none, none, none, none, none⟩ := by rfl
  rw [h2]
  intro hcontra
  have := Option.some.inj hcontra
  rw [hdrSubSec] at this
  have h3 := congrArg Header.ts this
  simp at h3

theorem bewitFromStr_match (s : String) (bytes : List Nat)
    (hb : b64decode s = some bytes) :
    Bewit.fromStr s =
      (match splitOnByte 92 bytes with
       | [p0, p1, p2, p3] =>
         (match utf8Decode p0 with
          | none => none
          | some id =>
            match utf8Decode p1 with
            | none => none
            | some expStr =>
              match i64FromStr expStr.data with
              | none => none
              | some exp =>
                match utf8Decode p2 with
                | none => none
                | some macStr =>
                  match b64decode macStr with
                  | none => none
                  | some mac =>
                    match p3 with
                    | [] => some ⟨id, ⟨exp, 0⟩, mac, none⟩
                    | _ =>
                      match utf8Decode p3 with
                      | none => none
                      | some e => some ⟨id, ⟨exp, 0⟩, mac, some e⟩)
       | _ => none) := by
  unfold Bewit.fromStr
  rw [hb]

/-- C7: `Bewit::from_str` fails exactly on: outer base64 failure, a split
into other than 4 parts, UTF-8 failure on part 0, 1, 2 or a non-empty
part 3, `i64` parse failure on part 1, or inner base64 failure on part 2;
on success an empty part 3 leaves ext absent and a non-empty part 3 gives
ext its UTF-8 decoding. -/
theorem bewit_fromStr_error_conditions (s : String) :
    (b64decode s = none → Bewit.fromStr s = none) ∧
    (∀ bytes, b64decode s = some bytes →
      ((∀ p0 p1 p2 p3, splitOnByte 92 bytes ≠ [p0, p1, p2, p3]) →
        Bewit.fromStr s = none) ∧
      (∀ p0 p1 p2 p3, splitOnByte 92 bytes = [p0, p1, p2, p3] →
        (Bewit.fromStr s = none ↔
          utf8Decode p0 = none ∨
          (∃ es, utf8Decode p1 = some es ∧ i64FromStr es.data = none) ∨
          utf8Decode p1 = none ∨
          (∃ ms, utf8Decode p2 = some ms ∧ b64decode ms = none) ∨
          utf8Decode p2 = none ∨
          (p3 ≠ [] ∧ utf8Decode p3 = none)) ∧
        (∀ b, Bewit.fromStr s = some b →
          (p3 = [] → b.ext = none) ∧
          (p3 ≠ [] → ∃ e, utf8Decode p3 = some e ∧ b.ext = some e)))) := by
  constructor
  · intro hb
    unfold Bewit.fromStr
    rw [hb]
  · intro bytes hb
    constructor
    · intro hne
      rw [bewitFromStr_match s bytes hb]
      rcases hsp : splitOnByte 92 bytes with _ | ⟨a, _ | ⟨b', _ | ⟨c, _ | ⟨d, _ | ⟨e, rest⟩⟩⟩⟩⟩
      · rfl
      · rfl
      · rfl
      · rfl
      · exact absurd hsp (hne a b' c d)
      · rfl
    · intro p0 p1 p2 p3 hsp
      rw [bewitFromStr_match s bytes hb]
      simp only [hsp]
      cases hu0 : utf8Decode p0 with
      | none => simp [hu0]
      | some id =>
        cases hu1 : utf8Decode p1 with
        | none => simp [hu1]
        | some es =>
          cases hi : i64FromStr es.data with
          | none => simp [hu0, hu1, hi]
          | some v =>
            cases hu2 : utf8Decode p2 with
            | none => simp [hu0, hu1, hu2, hi]
            | some ms =>
              cases hbm : b64decode ms with
              | none => simp [hu0, hu1, hu2, hi, hbm]
              | some mac =>
                cases p3 with
                | nil => simp [hu0, hu1, hu2, hi, hbm]
                | cons x xs =>
                  cases hu3 : utf8Decode (x :: xs) with
                  | none => simp [hu0, hu1, hu2, hi, hbm, hu3]
                  | some e => simp [hu0, hu1, hu2, hi, hbm, hu3]

/-! ## Witnesses -/

/-- Witness for C3's round trip at a fully populated concrete header. -/
theorem header_roundtrip_whole_seconds_witness :
    Header.fromStr (Header.fmtHeader hdrFull) = some hdrFull :=
  header_roundtrip_whole_seconds (some "dh37fgj492je") (some ⟨1353832234, 0⟩)
    (some "j4h3g2") (some [8, 35, 182]) (some "my-ext") (some [1, 2, 3, 4])
    (some "my-app") (some "my-dlg") hdrFull rfl
    (fun t ht => by
      obtain rfl := Option.some.inj ht
      exact ⟨rfl, by decide, by decide⟩)
    (fun m hm => by
      obtain rfl := Option.some.inj hm
      decide)
    (fun m hm => by
      obtain rfl := Option.some.inj hm
      decide)

/-- Witness for C5 at a concrete request, bewit and key. -/
theorem validateBewit_iff_witness :
    Request.validateBewit reqT bwOk keyT ⟨2000, 0⟩ = some true ↔
      (bwOk.mac = [9, 42] ∧ tsLt bwOk.exp ⟨2000, 0⟩ = false) :=
  validateBewit_iff reqT bwOk keyT ⟨2000, 0⟩ [9, 42] rfl

/-- Witness for C6 at a concrete header whose MAC matches. -/
theorem validateHeader_skew_symmetric_witness :
    Request.validateHeader reqT hdrOk keyT 5 ⟨1000, 3⟩ =
      some (decide (|tsNanos ⟨1000, 3⟩ - tsNanos ⟨1000, 0⟩| ≤ 5)) :=
  validateHeader_skew_symmetric reqT hdrOk keyT 5 ⟨1000, 3⟩ ⟨1000, 0⟩ "n" [9, 42]
    rfl rfl rfl rfl rfl (by decide) (by decide) (by decide) (by decide)

/-- Witness for C7 at a concrete well-formed token. -/
theorem bewit_fromStr_error_conditions_witness :
    Bewit.fromStr bewitTokenW = none ↔
      utf8Decode [97] = none ∨
      (∃ es, utf8Decode [49] = some es ∧ i64FromStr es.data = none) ∨
      utf8Decode [49] = none ∨
      (∃ ms, utf8Decode ([] : List Nat) = some ms ∧ b64decode ms = none) ∨
      utf8Decode ([] : List Nat) = none ∨
      (([] : List Nat) ≠ [] ∧ utf8Decode ([] : List Nat) = none) :=
  (((bewit_fromStr_error_conditions bewitTokenW).2 [97, 92, 49, 92, 92] rfl).2
    [97] [49] [] [] rfl).1

/-- Witness for C8 at two concrete headers differing in id/app/dlg and a
bewit with a changed id. -/
theorem validate_ignores_identity_fields_witness :
    Request.validateHeader reqT hdrOk keyT 5 ⟨1000, 0⟩ =
      Request.validateHeader reqT hdrOk2 keyT 5 ⟨1000, 0⟩ ∧
    Request.validateBewit reqT ⟨"you", bwOk.exp, bwOk.mac, bwOk.ext⟩ keyT ⟨1000, 0⟩ =
      Request.validateBewit reqT bwOk keyT ⟨1000, 0⟩ :=
  ⟨validate_ignores_identity_fields.1 reqT keyT 5 ⟨1000, 0⟩ hdrOk hdrOk2
      rfl rfl rfl rfl rfl,
   validate_ignores_identity_fields.2 reqT keyT ⟨1000, 0⟩ bwOk "you"⟩

/-- Witness for C9 at a concrete chunking. -/
theorem payload_chunk_invariance_witness :
    ([[1], [2, 3]].foldl PayloadHasher.update (PayloadHasher.new [99] digestT)).finish =
      PayloadHasher.hash [99] digestT [1, 2, 3] :=
  payload_chunk_invariance [99] digestT [1, 2, 3] [[1], [2, 3]] rfl

/-- Witness for C10 at a concrete generated bewit. -/
theorem bewit_exp_bound_into_mac_witness :
    bwMade.exp = tsAdd ⟨1000, 0⟩ 60000000000 ∧ bwMade.ext = reqT.ext ∧
    bwMade.id = credT.id ∧
    credT.key.sign (macParamsString (bewitMacParams reqT bwMade.exp bwMade.ext)) =
      some bwMade.mac :=
  bewit_exp_bound_into_mac.1 reqT credT 60000000000 ⟨1000, 0⟩ bwMade rfl
